import Mathlib

/-! The address pool of `daemon/net.go`.

A shallow embedding of `randomPickWeighted`, `IPPool.Get` and
`newIPPoolFromHost`, followed by the properties proved about them.

Modelling conventions.

* A Go `map[string]int` is an association list with distinct keys.  The order
  in which a `range` statement walks the map is not fixed by the language, so
  every `range` takes a number that selects one of the permutations of the
  entries (`rangeOrder`); every number is allowed and every permutation is
  reached.
* A Go `map[string]struct{}` is a finite set of strings.
* Go `int` is a 64 bit two's complement integer: sums and differences are
  reduced with `wrapInt`.
* `rand.Intn n` takes a number as its source of randomness and returns that
  number modulo `n`; it panics when `n ≤ 0`.  Every value of `[0, n)` is
  reached.
* A panic is the result `none` (or `Outcome.panicked`); a retry loop that has
  used up all the draws it was given without leaving is `Outcome.looping`.
-/

namespace Daemon

/-! ## Machine integers and the random source -/

/-- Two's complement reduction of an integer to the range of a 64 bit `int`. -/
def wrapInt (x : Int) : Int := (x + 2 ^ 63) % 2 ^ 64 - 2 ^ 63

/-- The function `rand.Intn`: panics (`none`) unless `0 < n`, otherwise a value of
`[0, n)` determined by the random source `seed`. -/
def Intn (seed : Nat) (n : Int) : Option Int :=
  if n ≤ 0 then none else some ((seed : Int) % n)

/-! ## Go maps -/

/-- The entries of a `map[string]int`, in the order in which one `range`
statement visits them: the permutation of the entries selected by `seed`. -/
def rangeOrder (m : List (String × Int)) (seed : Nat) : List (String × Int) :=
  (m.permutations').getD (seed % (m.permutations').length) m

/-- The expression `m[k]` with its presence flag. -/
def mapGet (m : List (String × Int)) (k : String) : Option Int :=
  (m.find? (fun kv => kv.1 = k)).map Prod.snd

/-- The statement `m[k] = v`. -/
def mapSet (m : List (String × Int)) (k : String) (v : Int) : List (String × Int) :=
  if (mapGet m k).isSome then m.map (fun kv => if kv.1 = k then (kv.1, v) else kv)
  else m ++ [(k, v)]

/-! ## `randomPickWeighted` -/

/-- The first loop of `randomPickWeighted`: the sum of the weights, accumulated
in walk order. -/
def totalWeight (walk : List (String × Int)) : Int :=
  walk.foldl (fun t kw => wrapInt (t + kw.2)) 0

/-- The second loop of `randomPickWeighted`: subtract each weight from `r` and
return the first key at which the running value is `≤ 0`; the empty string
when the walk ends without such a key. -/
def pickWalk : List (String × Int) → Int → String
  | [], _ => ""
  | (k, w) :: rest, r =>
    if wrapInt (r - w) ≤ 0 then k else pickWalk rest (wrapInt (r - w))

/-- The function `randomPickWeighted m`.  The numbers `order1` and `order2` select the
walk orders of the two `range` loops and `seed` is the random source of
`rand.Intn totalWeight`.  The result is `none` when `rand.Intn` panics. -/
def randomPickWeighted (m : List (String × Int)) (order1 seed order2 : Nat) : Option String :=
  match Intn seed (totalWeight (rangeOrder m order1)) with
  | none => none
  | some r => some (pickWalk (rangeOrder m order2) r)

/-! ## The pool and `Get` -/

/-- The only error value of the package. -/
inductive Error where
  | NoAvailableIPsErr
  deriving DecidableEq, Repr

/-- The struct `IPPool` without its mutex. -/
structure IPPool where
  ips : Finset String
  weights : List (String × Int)

instance : DecidableEq IPPool := fun p q =>
  decidable_of_iff (p.ips = q.ips ∧ p.weights = q.weights)
    ⟨fun h => by cases p; cases q; cases h; simp_all, fun h => by subst h; exact ⟨rfl, rfl⟩⟩

/-- What one call of the closure `genIP` consumes: the walk orders of the two
`range` loops of `randomPickWeighted`, the random source of its `rand.Intn`, and
the random source of the `rand.Intn 6` of the `"172"` case. -/
structure Draw where
  order1 : Nat
  r : Nat
  order2 : Nat
  oct : Nat
  deriving DecidableEq, Repr

/-- The closure `genIP` of `Get`. -/
def genIP (weights : List (String × Int)) (d : Draw) : Option String :=
  match randomPickWeighted weights d.order1 d.r d.order2 with
  | none => none
  | some ip =>
    if ip = "192" then some (ip ++ ".168")
    else if ip = "172" then
      match Intn d.oct 6 with
      | none => none
      | some n => some (ip ++ ("." ++ toString (n + 25)))
    else some ip

/-- How a run of the retry loop, or of `Get`, ends. -/
inductive Outcome where
  | returned (ip : String) (err : Option Error)
  | panicked
  | looping
  deriving DecidableEq, Repr

/-- The loop `for exists { ip = genIP(); _, exists = ipp.ips[ip] }`: one draw per
iteration.  `Outcome.returned ip none` carries the candidate the loop leaves
with. -/
def retryLoop (ipp : IPPool) : List Draw → Outcome
  | [] => Outcome.looping
  | d :: ds =>
    match genIP ipp.weights d with
    | none => Outcome.panicked
    | some ip => if ip ∈ ipp.ips then retryLoop ipp ds else Outcome.returned ip none

/-- The method `IPPool.Get`: the pool after the call and how the call ended. -/
def Get (ipp : IPPool) (draws : List Draw) : IPPool × Outcome :=
  if 60000 < ipp.ips.card then (ipp, Outcome.returned "" (some Error.NoAvailableIPsErr))
  else
    match retryLoop ipp draws with
    | Outcome.returned ip _ => ({ ipp with ips := insert ip ipp.ips }, Outcome.returned ip none)
    | o => (ipp, o)

/-- A sequence of `Get` calls on one pool, each with its own draws: the pool
after the last call and the outcomes in call order.  A call that is still in
its retry loop holds the lock, so no later call runs; after a panic the
deferred unlock has run and later calls proceed. -/
def GetMany (ipp : IPPool) : List (List Draw) → IPPool × List Outcome
  | [] => (ipp, [])
  | ds :: rest =>
    match Get ipp ds with
    | (p, Outcome.looping) => (p, [Outcome.looping])
    | (p, o) => ((GetMany p rest).1, o :: (GetMany p rest).2)

/-- The addresses returned without error, in call order. -/
def returnedIPs (os : List Outcome) : List String :=
  os.filterMap (fun o =>
    match o with
    | Outcome.returned ip none => some ip
    | _ => none)

/-! ## `newIPPoolFromHost` -/

/-- A `net.IP` as the scan sees it: an IPv4 address (`To4` is not nil) with its
four bytes, or anything else. -/
inductive IP where
  | v4 (a b c d : Fin 256)
  | notV4
  deriving DecidableEq, Repr

/-- A `net.Addr`: a `*net.IPNet` carrying an IP, or another implementation. -/
inductive Addr where
  | ipNet (ip : IP)
  | otherAddr
  deriving DecidableEq, Repr

/-- A `net.Interface`: `addrs` is the result of `Addrs()`, `none` for an error. -/
structure Interface where
  addrs : Option (List Addr)
  deriving DecidableEq, Repr

/-- The value `strings.Split(addr.IP.String(), ".")` for an IPv4 address: `String`
prints the four bytes in decimal separated by dots, and a decimal numeral
holds no dot, so the split gives back the four numerals. -/
def ipParts (a b c d : Fin 256) : List String :=
  [toString a.val, toString b.val, toString c.val, toString d.val]

/-- The body of the loop over the addresses of one interface. -/
def scanAddr (st : Finset String × List (String × Int)) (a : Addr) :
    Finset String × List (String × Int) :=
  match a with
  | Addr.otherAddr => st
  | Addr.ipNet IP.notV4 => st
  | Addr.ipNet (IP.v4 a b c d) =>
    let parts := ipParts a b c d
    let lvl1 := parts.headD ""
    match mapGet st.2 lvl1 with
    | none => st
    | some w =>
      let ipStr := String.intercalate "." (parts.take 3)
      (insert ipStr st.1, mapSet st.2 lvl1 (wrapInt (w - 1)))

/-- The body of the loop over the interfaces. -/
def scanIface (st : Finset String × List (String × Int)) (i : Interface) :
    Finset String × List (String × Int) :=
  match i.addrs with
  | none => st
  | some addrs => addrs.foldl scanAddr st

/-- The initial weights of `newIPPoolFromHost`. -/
def defaultWeights : List (String × Int) := [("172", 255 * 255), ("192", 1 * 255)]

/-- The function `newIPPoolFromHost`; `host` is the result of `net.Interfaces()`, `none`
for an error. -/
def newIPPoolFromHost (host : Option (List Interface)) : IPPool :=
  let st : Finset String × List (String × Int) :=
    match host with
    | none => (∅, defaultWeights)
    | some ifaces => ifaces.foldl scanIface (∅, defaultWeights)
  { ips := st.1, weights := st.2 }

/-! ## Quantities used in the statements and proofs -/

/-- The exact sum of the weights of a walk. -/
def sumW (walk : List (String × Int)) : Int := (walk.map Prod.snd).sum

/-- The running value of the second loop after a whole walk. -/
def runFinal (walk : List (String × Int)) (r : Int) : Int :=
  walk.foldl (fun x kw => wrapInt (x - kw.2)) r

/-- The keys of a `map[string]int`. -/
def keys (m : List (String × Int)) : List String := m.map Prod.fst

/-- The seven strings `genIP` can build from the blocks `"192"` and `"172"`. -/
def candidates : List String :=
  ["192.168", "172.25", "172.26", "172.27", "172.28", "172.29", "172.30"]

/-- The addresses the scan visits, in scan order: those of the interfaces
whose listing succeeds. -/
def hostAddrs (ifaces : List Interface) : List Addr :=
  ifaces.flatMap (fun i => i.addrs.getD [])

/-- Whether an address is an IPv4 address whose first octet is `n`. -/
def firstOctetIs (n : Fin 256) : Addr → Bool
  | Addr.ipNet (IP.v4 a _ _ _) => decide (a = n)
  | _ => false

/-- The first three octets, in dotted decimal, of an IPv4 address whose first
octet is 172 or 192; `none` for every other address. -/
def occupied : Addr → Option String
  | Addr.ipNet (IP.v4 a b c _) =>
    if a = 172 ∨ a = 192 then
      some (toString a.val ++ "." ++ toString b.val ++ "." ++ toString c.val)
    else none
  | _ => none

/-- Whether the scan counts an address: IPv4 with first octet 172 or 192. -/
def inBlocks (x : Addr) : Bool := firstOctetIs 172 x || firstOctetIs 192 x

/-- A host with three interfaces: the listing of the second one fails. -/
def exampleHost : List Interface :=
  [⟨some [Addr.ipNet (IP.v4 172 27 4 9), Addr.otherAddr, Addr.ipNet IP.notV4]⟩, ⟨none⟩,
    ⟨some [Addr.ipNet (IP.v4 192 168 5 5), Addr.ipNet (IP.v4 10 0 0 1),
      Addr.ipNet (IP.v4 172 27 4 200)]⟩]

/-- A pool whose allocated set holds 60001 strings (`""`, `"x"`, `"xx"`, ...). -/
def fullPool : IPPool :=
  { ips := (Finset.range 60001).image (fun n => String.mk (List.replicate n 'x')),
    weights := defaultWeights }

/-- The number of dots of a string: a string of `n` dot-separated components
without a dot in them has `n - 1` dots. -/
def dotCount (s : String) : Nat := s.data.count '.'

/-- Whether the string `a` begins with the string `p` (`strings.HasPrefix a p`). -/
def beginsWith (a p : String) : Bool := p.data.isPrefixOf a.data

/-- A host with 256 IPv4 addresses `192.168.i.1`, one interface. -/
def busyHost : List Interface :=
  [⟨some ((List.finRange 256).map (fun i => Addr.ipNet (IP.v4 192 168 i 1)))⟩]

/-- A host with the two addresses `172.27.4.9` and `192.168.5.5`. -/
def twoAddrHost : List Interface :=
  [⟨some [Addr.ipNet (IP.v4 172 27 4 9), Addr.ipNet (IP.v4 192 168 5 5)]⟩]

/-- A pool that holds the seven candidates, with the default weights. -/
def usedUpPool : IPPool := { ips := candidates.toFinset, weights := defaultWeights }

/-- A pool that holds the seven candidates and whose weight map has the one key
`"10"`. -/
def otherKeyPool : IPPool := { ips := candidates.toFinset, weights := [("10", 1)] }

/-- Seven calls of one draw each, which draw `"192.168"` and then `"172.25"` to
`"172.30"`. -/
def sevenCalls : List (List Draw) :=
  [[⟨0, 65026, 0, 0⟩], [⟨0, 0, 0, 0⟩], [⟨0, 0, 0, 1⟩], [⟨0, 0, 0, 2⟩], [⟨0, 0, 0, 3⟩],
    [⟨0, 0, 0, 4⟩], [⟨0, 0, 0, 5⟩]]

/-! ## Machine arithmetic -/

theorem wrapInt_range (x : Int) : -2 ^ 63 ≤ wrapInt x ∧ wrapInt x < 2 ^ 63 := by
  unfold wrapInt; omega

theorem wrapInt_of_range (x : Int) (h1 : -2 ^ 63 ≤ x) (h2 : x < 2 ^ 63) : wrapInt x = x := by
  unfold wrapInt; omega

theorem wrapInt_congr (x : Int) : (wrapInt x - x) % 2 ^ 64 = 0 := by
  unfold wrapInt; omega

/-! ## Walk orders -/

theorem rangeOrder_perm (m : List (String × Int)) (seed : Nat) : (rangeOrder m seed).Perm m := by
  unfold rangeOrder
  rw [List.getD_eq_getElem?_getD]
  cases h : (m.permutations')[seed % (m.permutations').length]? with
  | none => simp
  | some l =>
    have hmem : l ∈ m.permutations' := List.getElem?_mem h
    simpa using List.mem_permutations'.1 hmem

/-- Every order of the entries is the walk order of some seed. -/
theorem rangeOrder_surj (m walk : List (String × Int)) (h : walk.Perm m) :
    ∃ seed, rangeOrder m seed = walk := by
  have hmem : walk ∈ m.permutations' := List.mem_permutations'.2 h
  obtain ⟨i, hi, hget⟩ := List.getElem_of_mem hmem
  refine ⟨i, ?_⟩
  unfold rangeOrder
  rw [Nat.mod_eq_of_lt hi, List.getD_eq_getElem?_getD, List.getElem?_eq_getElem hi, hget]
  rfl

/-- Every value of `[0, n)` is the result of `rand.Intn n` for some seed. -/
theorem Intn_surj (n r : Int) (h0 : 0 ≤ r) (h1 : r < n) : ∃ seed, Intn seed n = some r := by
  refine ⟨r.toNat, ?_⟩
  have hn : ¬ n ≤ 0 := by omega
  have hr : ((r.toNat : Nat) : Int) = r := Int.toNat_of_nonneg h0
  simp only [Intn, hn, if_false, hr, Option.some.injEq]
  exact Int.emod_eq_of_lt h0 h1

/-! ## The two loops of `randomPickWeighted` -/

theorem sumW_perm {l₁ l₂ : List (String × Int)} (h : l₁.Perm l₂) : sumW l₁ = sumW l₂ :=
  (h.map Prod.snd).sum_eq

theorem foldl_total_congr (walk : List (String × Int)) (t : Int) :
    (walk.foldl (fun t kw => wrapInt (t + kw.2)) t - (t + sumW walk)) % 2 ^ 64 = 0 := by
  induction walk generalizing t with
  | nil => simp [sumW]
  | cons kw rest ih =>
    have h1 := ih (wrapInt (t + kw.2))
    have h2 := wrapInt_congr (t + kw.2)
    simp only [List.foldl_cons, sumW, List.map_cons, List.sum_cons] at h1 ⊢
    omega

theorem totalWeight_congr (walk : List (String × Int)) :
    (totalWeight walk - sumW walk) % 2 ^ 64 = 0 := by
  have h := foldl_total_congr walk 0
  simpa [totalWeight] using h

theorem foldl_total_range (walk : List (String × Int)) (t : Int)
    (h1 : -2 ^ 63 ≤ t) (h2 : t < 2 ^ 63) :
    -2 ^ 63 ≤ walk.foldl (fun t kw => wrapInt (t + kw.2)) t ∧
      walk.foldl (fun t kw => wrapInt (t + kw.2)) t < 2 ^ 63 := by
  induction walk generalizing t with
  | nil => exact ⟨h1, h2⟩
  | cons kw rest ih =>
    have h := wrapInt_range (t + kw.2)
    exact ih _ h.1 h.2

theorem totalWeight_range (walk : List (String × Int)) :
    -2 ^ 63 ≤ totalWeight walk ∧ totalWeight walk < 2 ^ 63 :=
  foldl_total_range walk 0 (by norm_num) (by norm_num)

theorem runFinal_congr (walk : List (String × Int)) (r : Int) :
    (runFinal walk r - (r - sumW walk)) % 2 ^ 64 = 0 := by
  induction walk generalizing r with
  | nil => simp [runFinal, sumW]
  | cons kw rest ih =>
    have h1 := ih (wrapInt (r - kw.2))
    have h2 := wrapInt_congr (r - kw.2)
    simp only [runFinal, List.foldl_cons, sumW, List.map_cons, List.sum_cons] at h1 ⊢
    omega

theorem runFinal_range (walk : List (String × Int)) (r : Int)
    (h1 : -2 ^ 63 ≤ r) (h2 : r < 2 ^ 63) :
    -2 ^ 63 ≤ runFinal walk r ∧ runFinal walk r < 2 ^ 63 := by
  induction walk generalizing r with
  | nil => exact ⟨h1, h2⟩
  | cons kw rest ih =>
    have h := wrapInt_range (r - kw.2)
    exact ih _ h.1 h.2

/-- A walk that returns no key of the map ends with a positive running value. -/
theorem pickWalk_not_mem (walk : List (String × Int)) (r : Int) (hr : 0 < r)
    (h : pickWalk walk r ∉ walk.map Prod.fst) : 0 < runFinal walk r := by
  induction walk generalizing r with
  | nil => simpa [runFinal] using hr
  | cons kw rest ih =>
    obtain ⟨k, w⟩ := kw
    by_cases hle : wrapInt (r - w) ≤ 0
    · simp [pickWalk, hle] at h
    · simp only [pickWalk, hle, if_false, List.map_cons, List.mem_cons, not_or] at h
      have := ih (wrapInt (r - w)) (by omega) h.2
      simpa [runFinal] using this

/-- With a walk of at least one entry the first step already decides. -/
theorem pickWalk_cons_not_mem (kw : String × Int) (rest : List (String × Int)) (r : Int)
    (h : pickWalk (kw :: rest) r ∉ (kw :: rest).map Prod.fst) :
    0 < runFinal (kw :: rest) r := by
  obtain ⟨k, w⟩ := kw
  by_cases hle : wrapInt (r - w) ≤ 0
  · simp [pickWalk, hle] at h
  · simp only [pickWalk, hle, if_false, List.map_cons, List.mem_cons, not_or] at h
    have := pickWalk_not_mem rest (wrapInt (r - w)) (by omega) h.2
    simpa [runFinal] using this

/-- Whenever `randomPickWeighted` returns, it returns a key of the map: the walk
cannot run off its end, because the draw is below the total and the running
value after the whole walk is the draw minus the total. -/
theorem randomPickWeighted_mem (m : List (String × Int)) (order1 seed order2 : Nat) (k : String)
    (h : randomPickWeighted m order1 seed order2 = some k) : k ∈ keys m := by
  unfold randomPickWeighted Intn at h
  by_cases hT : totalWeight (rangeOrder m order1) ≤ 0
  · simp [hT] at h
  · simp only [hT, if_false, Option.some.injEq] at h
    have hp1 := rangeOrder_perm m order1
    have hp2 := rangeOrder_perm m order2
    by_contra hk
    have hk2 : pickWalk (rangeOrder m order2) (↑seed % totalWeight (rangeOrder m order1)) ∉
        (rangeOrder m order2).map Prod.fst := by
      rw [h]
      intro hmem
      exact hk ((hp2.map Prod.fst).mem_iff.1 hmem)
    have hTpos : 0 < totalWeight (rangeOrder m order1) := by omega
    have hr0 := Int.emod_nonneg (↑seed) (ne_of_gt hTpos)
    have hr1 := Int.emod_lt_of_pos (↑seed) hTpos
    have hTr := totalWeight_range (rangeOrder m order1)
    have hTc := totalWeight_congr (rangeOrder m order1)
    have hS : sumW (rangeOrder m order2) = sumW (rangeOrder m order1) :=
      sumW_perm (hp2.trans hp1.symm)
    generalize hw2 : rangeOrder m order2 = walk2 at hk2 hS hp2
    generalize hr : (↑seed : Int) % totalWeight (rangeOrder m order1) = r at hk2 hr0 hr1
    cases walk2 with
    | nil =>
      have hm : m = [] := by simpa using hp2.symm
      rw [hm] at hTpos
      simp [rangeOrder, totalWeight] at hTpos
    | cons kw rest =>
      have hpos := pickWalk_cons_not_mem kw rest r hk2
      have hc := runFinal_congr (kw :: rest) r
      have hrg := runFinal_range (kw :: rest) r (by omega) (by omega)
      rw [hS] at hc
      omega

/-! ## The retry loop and `Get` -/

theorem retryLoop_returned (ipp : IPPool) (draws : List Draw) (a : String) (e : Option Error)
    (h : retryLoop ipp draws = Outcome.returned a e) :
    e = none ∧ a ∉ ipp.ips ∧ ∃ d ∈ draws, genIP ipp.weights d = some a := by
  induction draws with
  | nil => simp [retryLoop] at h
  | cons d ds ih =>
    unfold retryLoop at h
    cases hg : genIP ipp.weights d with
    | none => simp [hg] at h
    | some ip =>
      simp only [hg] at h
      by_cases hin : ip ∈ ipp.ips
      · simp only [hin, if_true] at h
        obtain ⟨h1, h2, d1, hd1, hd2⟩ := ih h
        exact ⟨h1, h2, d1, List.mem_cons_of_mem _ hd1, hd2⟩
      · simp only [hin, if_false, Outcome.returned.injEq] at h
        obtain ⟨rfl, rfl⟩ := h
        exact ⟨rfl, hin, d, List.mem_cons_self _ _, hg⟩

theorem Get_full (ipp : IPPool) (draws : List Draw) (h : 60000 < ipp.ips.card) :
    Get ipp draws = (ipp, Outcome.returned "" (some Error.NoAvailableIPsErr)) := by
  simp [Get, h]

theorem Get_not_full (ipp : IPPool) (draws : List Draw) (h : ¬ 60000 < ipp.ips.card) :
    (∃ a, retryLoop ipp draws = Outcome.returned a none ∧
        Get ipp draws = ({ ipp with ips := insert a ipp.ips }, Outcome.returned a none)) ∨
      ((retryLoop ipp draws = Outcome.panicked ∨ retryLoop ipp draws = Outcome.looping) ∧
        Get ipp draws = (ipp, retryLoop ipp draws)) := by
  unfold Get
  simp only [h, if_false]
  cases hl : retryLoop ipp draws with
  | returned a e =>
    obtain ⟨rfl, -, -⟩ := retryLoop_returned ipp draws a e hl
    exact Or.inl ⟨a, rfl, rfl⟩
  | panicked => exact Or.inr ⟨Or.inl rfl, rfl⟩
  | looping => exact Or.inr ⟨Or.inr rfl, rfl⟩

/-- A successful `Get`: the loop left with `a`, which was new, and `a` was added. -/
theorem Get_success (ipp : IPPool) (draws : List Draw) (a : String)
    (h : (Get ipp draws).2 = Outcome.returned a none) :
    ¬ 60000 < ipp.ips.card ∧ a ∉ ipp.ips ∧ (∃ d ∈ draws, genIP ipp.weights d = some a) ∧
      Get ipp draws = ({ ipp with ips := insert a ipp.ips }, Outcome.returned a none) := by
  by_cases hc : 60000 < ipp.ips.card
  · rw [Get_full ipp draws hc] at h
    simp at h
  · rcases Get_not_full ipp draws hc with ⟨b, hl, hG⟩ | ⟨hl, hG⟩
    · rw [hG] at h
      simp only [Outcome.returned.injEq, and_true] at h
      subst h
      obtain ⟨-, h2, h3⟩ := retryLoop_returned ipp draws b none hl
      exact ⟨hc, h2, h3, hG⟩
    · rw [hG] at h
      rcases hl with hl | hl <;> rw [hl] at h <;> simp at h

/-- A `Get` that is not successful leaves the pool as it was. -/
theorem Get_unchanged (ipp : IPPool) (draws : List Draw)
    (h : ∀ a, (Get ipp draws).2 ≠ Outcome.returned a none) : (Get ipp draws).1 = ipp := by
  by_cases hc : 60000 < ipp.ips.card
  · rw [Get_full ipp draws hc]
  · rcases Get_not_full ipp draws hc with ⟨b, -, hG⟩ | ⟨-, hG⟩
    · exact absurd (by rw [hG]) (h b)
    · rw [hG]

theorem fullPool_card : 60000 < fullPool.ips.card := by
  have hinj : Function.Injective (fun n : Nat => String.mk (List.replicate n 'x')) := by
    intro a b hab
    have h := congrArg String.length hab
    simpa [String.length] using h
  simp [fullPool, Finset.card_image_of_injective _ hinj]

/-! ## Sequences of calls -/

theorem GetMany_cons_looping (ipp p : IPPool) (ds : List Draw) (rest : List (List Draw))
    (h : Get ipp ds = (p, Outcome.looping)) :
    GetMany ipp (ds :: rest) = (p, [Outcome.looping]) := by
  simp [GetMany, h]

theorem GetMany_cons_other (ipp p : IPPool) (o : Outcome) (ds : List Draw)
    (rest : List (List Draw)) (h : Get ipp ds = (p, o)) (ho : o ≠ Outcome.looping) :
    GetMany ipp (ds :: rest) = ((GetMany p rest).1, o :: (GetMany p rest).2) := by
  cases o with
  | looping => exact absurd rfl ho
  | panicked => simp [GetMany, h]
  | returned a e => simp [GetMany, h]

theorem returnedIPs_cons_ok (a : String) (os : List Outcome) :
    returnedIPs (Outcome.returned a none :: os) = a :: returnedIPs os := by
  simp [returnedIPs]

theorem returnedIPs_cons_other (o : Outcome) (os : List Outcome)
    (h : ∀ a, o ≠ Outcome.returned a none) : returnedIPs (o :: os) = returnedIPs os := by
  cases o with
  | looping => simp [returnedIPs]
  | panicked => simp [returnedIPs]
  | returned a e =>
    cases e with
    | none => exact absurd rfl (h a)
    | some e => simp [returnedIPs]

/-- One step of a sequence of calls, by the outcome of its first call. -/
theorem GetMany_step (ipp : IPPool) (ds : List Draw) (rest : List (List Draw)) :
    (GetMany ipp (ds :: rest) = (ipp, [Outcome.looping])) ∨
    (∃ a, a ∉ ipp.ips ∧
      GetMany ipp (ds :: rest) =
        ((GetMany { ipp with ips := insert a ipp.ips } rest).1,
          Outcome.returned a none :: (GetMany { ipp with ips := insert a ipp.ips } rest).2)) ∨
    (∃ o, (∀ a, o ≠ Outcome.returned a none) ∧
      GetMany ipp (ds :: rest) = ((GetMany ipp rest).1, o :: (GetMany ipp rest).2)) := by
  cases hG : Get ipp ds with
  | mk p o =>
    by_cases hok : ∃ a, o = Outcome.returned a none
    · obtain ⟨a, rfl⟩ := hok
      have hs := Get_success ipp ds a (by rw [hG])
      obtain ⟨-, hnew, -, hG2⟩ := hs
      rw [hG2] at hG
      refine Or.inr (Or.inl ⟨a, hnew, ?_⟩)
      rw [GetMany_cons_other ipp _ _ ds rest hG2 (by simp)]
    · have hno : ∀ a, o ≠ Outcome.returned a none := fun a ha => hok ⟨a, ha⟩
      have hp : p = ipp := by
        have := Get_unchanged ipp ds (by rw [hG]; exact hno)
        rw [hG] at this
        exact this
      subst hp
      by_cases hl : o = Outcome.looping
      · subst hl
        exact Or.inl (GetMany_cons_looping p p ds rest hG)
      · exact Or.inr (Or.inr ⟨o, hno, GetMany_cons_other p p o ds rest hG hl⟩)

/-- The allocated set only grows, the returned addresses are pairwise
distinct, and each of them is in the final set and was not in the initial one. -/
theorem GetMany_inv (ipp : IPPool) (calls : List (List Draw)) :
    ipp.ips ⊆ (GetMany ipp calls).1.ips ∧ (returnedIPs (GetMany ipp calls).2).Nodup ∧
      ∀ a ∈ returnedIPs (GetMany ipp calls).2, a ∈ (GetMany ipp calls).1.ips ∧ a ∉ ipp.ips := by
  induction calls generalizing ipp with
  | nil => simp [GetMany, returnedIPs]
  | cons ds rest ih =>
    rcases GetMany_step ipp ds rest with h | ⟨a, hnew, h⟩ | ⟨o, hno, h⟩
    · rw [h]; simp [returnedIPs]
    · obtain ⟨h1, h2, h3⟩ := ih { ipp with ips := insert a ipp.ips }
      rw [h]
      simp only [returnedIPs_cons_ok]
      have hsub : ipp.ips ⊆ insert a ipp.ips := Finset.subset_insert a ipp.ips
      have ha : a ∈ insert a ipp.ips := Finset.mem_insert_self a ipp.ips
      refine ⟨hsub.trans h1, ?_, ?_⟩
      · exact List.nodup_cons.2 ⟨fun hmem => (h3 a hmem).2 ha, h2⟩
      · intro b hb
        rcases List.mem_cons.1 hb with rfl | hb
        · exact ⟨h1 ha, hnew⟩
        · exact ⟨(h3 b hb).1, fun hbin => (h3 b hb).2 (hsub hbin)⟩
    · obtain ⟨h1, h2, h3⟩ := ih ipp
      rw [h]
      simp only [returnedIPs_cons_other o _ hno]
      exact ⟨h1, h2, h3⟩

/-- An address returned during a first part of a sequence of calls is in the
allocated set after any continuation of the sequence. -/
theorem GetMany_kept (ipp : IPPool) (pre post : List (List Draw)) :
    ∀ a ∈ returnedIPs (GetMany ipp pre).2, a ∈ (GetMany ipp (pre ++ post)).1.ips := by
  induction pre generalizing ipp with
  | nil => simp [GetMany, returnedIPs]
  | cons ds rest ih =>
    rw [List.cons_append]
    cases hG : Get ipp ds with
    | mk p o =>
      by_cases hl : o = Outcome.looping
      · subst hl
        rw [GetMany_cons_looping ipp p ds rest hG]
        simp [returnedIPs]
      · rw [GetMany_cons_other ipp p o ds rest hG hl,
          GetMany_cons_other ipp p o ds (rest ++ post) hG hl]
        intro a ha
        by_cases hok : ∃ b, o = Outcome.returned b none
        · obtain ⟨b, rfl⟩ := hok
          rw [returnedIPs_cons_ok] at ha
          rcases List.mem_cons.1 ha with rfl | ha
          · obtain ⟨-, -, -, hG2⟩ := Get_success ipp ds a (by rw [hG])
            have hp : p = { ipp with ips := insert a ipp.ips } := by
              rw [hG2] at hG
              exact (Prod.mk.inj hG).1.symm
            have hmem : a ∈ p.ips := by rw [hp]; exact Finset.mem_insert_self a ipp.ips
            exact (GetMany_inv p (rest ++ post)).1 hmem
          · exact ih p a ha
        · have hno : ∀ b, o ≠ Outcome.returned b none := fun b hb => hok ⟨b, hb⟩
          rw [returnedIPs_cons_other o _ hno] at ha
          exact ih p a ha

/-! ## The strings `genIP` builds -/

theorem genIP_candidates (weights : List (String × Int)) (d : Draw) (a : String)
    (hk : (keys weights).Perm ["172", "192"]) (h : genIP weights d = some a) :
    a ∈ candidates := by
  unfold genIP at h
  cases hp : randomPickWeighted weights d.order1 d.r d.order2 with
  | none => simp [hp] at h
  | some k =>
    have hmem : k ∈ ["172", "192"] :=
      hk.mem_iff.1 (randomPickWeighted_mem weights d.order1 d.r d.order2 k hp)
    simp only [hp] at h
    simp only [List.mem_cons, List.mem_singleton, List.not_mem_nil, or_false] at hmem
    rcases hmem with rfl | rfl
    · have hoct : ((d.oct : Int) % 6 = 0 ∨ (d.oct : Int) % 6 = 1 ∨ (d.oct : Int) % 6 = 2) ∨
          ((d.oct : Int) % 6 = 3 ∨ (d.oct : Int) % 6 = 4 ∨ (d.oct : Int) % 6 = 5) := by omega
      have h6 : ¬ ((6 : Int) ≤ 0) := by decide
      have hne : ¬ ("172" = "192") := by decide
      simp only [hne, if_false, if_true, Intn, h6, Option.some.injEq] at h
      subst h
      rcases hoct with (h0 | h0 | h0) | (h0 | h0 | h0) <;> rw [h0] <;> decide
    · simp only [if_true, Option.some.injEq] at h
      subst h
      decide

/-- An error is returned only by a pool of more than 60000 entries. -/
theorem Get_error_full (ipp : IPPool) (draws : List Draw) (a : String) (e : Error)
    (h : (Get ipp draws).2 = Outcome.returned a (some e)) : 60000 < ipp.ips.card := by
  by_contra hc
  rcases Get_not_full ipp draws hc with ⟨b, -, hG⟩ | ⟨hl, hG⟩
  · rw [hG] at h
    simp at h
  · rw [hG] at h
    rcases hl with hl | hl <;> rw [hl] at h <;> simp at h

/-! ## The pick on the default weights -/

/-- With the default weights walked in the order `"172"`, `"192"`, the draws up to
and including 65025 give `"172"` and the others give `"192"`. -/
theorem pick_default (r : Nat) (hr : r < 65280) :
    randomPickWeighted defaultWeights 0 r 0 = some (if r ≤ 65025 then "172" else "192") := by
  have h1 : rangeOrder defaultWeights 0 = defaultWeights := by decide
  have h2 : totalWeight defaultWeights = 65280 := by decide
  have h3 : (r : Int) % 65280 = r := by omega
  unfold randomPickWeighted
  rw [h1, h2]
  simp only [Intn, h3, show ¬ ((65280 : Int) ≤ 0) by decide, if_false, Option.some.injEq]
  simp only [defaultWeights, pickWalk]
  rw [show (255 : Int) * 255 = 65025 by norm_num, show (1 : Int) * 255 = 255 by norm_num]
  by_cases hle : r ≤ 65025
  · have h4 : wrapInt ((r : Int) - 65025) ≤ 0 := by unfold wrapInt; omega
    rw [if_pos h4, if_pos hle]
  · have h4 : ¬ wrapInt ((r : Int) - 65025) ≤ 0 := by unfold wrapInt; omega
    have h5 : wrapInt (wrapInt ((r : Int) - 65025) - 255) ≤ 0 := by
      unfold wrapInt; omega
    rw [if_neg h4, if_pos h5, if_neg hle]

/-! ## The host scan -/

set_option maxRecDepth 1000000 in
theorem toString_octet (a : Fin 256) :
    (toString a.val = "172" ↔ a = 172) ∧ (toString a.val = "192" ↔ a = 192) := by
  revert a
  decide

/-- One address of block 172: its prefix is recorded and the weight of `"172"`
goes down by one. -/
theorem scanAddr_172 (S : Finset String) (w1 w2 : Int) (x : Addr)
    (h : firstOctetIs 172 x = true) :
    ∃ p, occupied x = some p ∧
      scanAddr (S, [("172", w1), ("192", w2)]) x =
        (insert p S, [("172", wrapInt (w1 - 1)), ("192", w2)]) := by
  cases x with
  | otherAddr => simp [firstOctetIs] at h
  | ipNet ip =>
    cases ip with
    | notV4 => simp [firstOctetIs] at h
    | v4 a b c d =>
      have ha : a = 172 := by simpa [firstOctetIs] using h
      subst ha
      refine ⟨toString (172 : Fin 256).val ++ "." ++ toString b.val ++ "." ++ toString c.val,
        by simp [occupied], ?_⟩
      have h1 : toString (172 : Fin 256).val = "172" := by decide
      simp [scanAddr, ipParts, h1, mapGet, mapSet, String.intercalate, String.intercalate.go]

/-- One address of block 192: its prefix is recorded and the weight of `"192"`
goes down by one. -/
theorem scanAddr_192 (S : Finset String) (w1 w2 : Int) (x : Addr)
    (h : firstOctetIs 192 x = true) :
    ∃ p, occupied x = some p ∧
      scanAddr (S, [("172", w1), ("192", w2)]) x =
        (insert p S, [("172", w1), ("192", wrapInt (w2 - 1))]) := by
  cases x with
  | otherAddr => simp [firstOctetIs] at h
  | ipNet ip =>
    cases ip with
    | notV4 => simp [firstOctetIs] at h
    | v4 a b c d =>
      have ha : a = 192 := by simpa [firstOctetIs] using h
      subst ha
      refine ⟨toString (192 : Fin 256).val ++ "." ++ toString b.val ++ "." ++ toString c.val,
        by simp [occupied], ?_⟩
      have h1 : toString (192 : Fin 256).val = "192" := by decide
      simp [scanAddr, ipParts, h1, mapGet, mapSet, String.intercalate, String.intercalate.go]

/-- Any other address changes nothing. -/
theorem scanAddr_other (S : Finset String) (w1 w2 : Int) (x : Addr)
    (h1 : firstOctetIs 172 x = false) (h2 : firstOctetIs 192 x = false) :
    occupied x = none ∧
      scanAddr (S, [("172", w1), ("192", w2)]) x = (S, [("172", w1), ("192", w2)]) := by
  cases x with
  | otherAddr => simp [occupied, scanAddr]
  | ipNet ip =>
    cases ip with
    | notV4 => simp [occupied, scanAddr]
    | v4 a b c d =>
      have ha1 : a ≠ 172 := by simpa [firstOctetIs] using h1
      have ha2 : a ≠ 192 := by simpa [firstOctetIs] using h2
      have hs1 : ¬ ("172" = toString a.val) := fun e => ha1 ((toString_octet a).1.1 e.symm)
      have hs2 : ¬ ("192" = toString a.val) := fun e => ha2 ((toString_octet a).2.1 e.symm)
      simp [occupied, scanAddr, ipParts, mapGet, ha1, ha2, hs1, hs2]

theorem firstOctetIs_excl (x : Addr) (h : firstOctetIs 172 x = true) :
    firstOctetIs 192 x = false := by
  cases x with
  | otherAddr => simp [firstOctetIs] at h
  | ipNet ip =>
    cases ip with
    | notV4 => simp [firstOctetIs] at h
    | v4 a b c d =>
      have ha : a = 172 := by simpa [firstOctetIs] using h
      subst ha
      simp [firstOctetIs]

/-- The scan of a list of addresses from a state with the two blocks, as long
as the weights stay in the range of `int`. -/
theorem scan_fold (addrs : List Addr) (S : Finset String) (w1 w2 : Int)
    (h1 : w1 < 2 ^ 63) (h1l : -2 ^ 63 ≤ w1 - ((addrs.length : Nat) : Int))
    (h2 : w2 < 2 ^ 63) (h2l : -2 ^ 63 ≤ w2 - ((addrs.length : Nat) : Int)) :
    addrs.foldl scanAddr (S, [("172", w1), ("192", w2)]) =
      (S ∪ (addrs.filterMap occupied).toFinset,
        [("172", w1 - ((addrs.countP (firstOctetIs 172) : Nat) : Int)),
          ("192", w2 - ((addrs.countP (firstOctetIs 192) : Nat) : Int))]) := by
  induction addrs generalizing S w1 w2 with
  | nil => simp
  | cons x rest ih =>
    simp only [List.length_cons, Nat.cast_add, Nat.cast_one] at h1l h2l
    rw [List.foldl_cons]
    by_cases c1 : firstOctetIs 172 x = true
    · have c2 := firstOctetIs_excl x c1
      obtain ⟨p, hp, hstep⟩ := scanAddr_172 S w1 w2 x c1
      have hw : wrapInt (w1 - 1) = w1 - 1 := wrapInt_of_range _ (by omega) (by omega)
      rw [hstep, hw, ih (insert p S) (w1 - 1) w2 (by omega) (by omega) h2 (by omega)]
      simp only [List.countP_cons, c1, c2, List.filterMap_cons, hp, List.toFinset_cons]
      refine Prod.ext ?_ ?_
      · simp only [Finset.insert_union, Finset.union_insert]
      · simp only [if_true, Nat.cast_add, Nat.cast_one]
        simp
        omega
    · have c1f : firstOctetIs 172 x = false := by simpa using c1
      by_cases c2 : firstOctetIs 192 x = true
      · obtain ⟨p, hp, hstep⟩ := scanAddr_192 S w1 w2 x c2
        have hw : wrapInt (w2 - 1) = w2 - 1 := wrapInt_of_range _ (by omega) (by omega)
        rw [hstep, hw, ih (insert p S) w1 (w2 - 1) h1 (by omega) (by omega) (by omega)]
        simp only [List.countP_cons, c1f, c2, List.filterMap_cons, hp, List.toFinset_cons]
        refine Prod.ext ?_ ?_
        · simp only [Finset.insert_union, Finset.union_insert]
        · simp only [if_true, Nat.cast_add, Nat.cast_one]
          simp
          omega
      · have c2f : firstOctetIs 192 x = false := by simpa using c2
        obtain ⟨hp, hstep⟩ := scanAddr_other S w1 w2 x c1f c2f
        rw [hstep, ih S w1 w2 h1 (by omega) h2 (by omega)]
        simp [List.countP_cons, c1f, c2f, List.filterMap_cons, hp]

theorem scanIface_eq (st : Finset String × List (String × Int)) (i : Interface) :
    scanIface st i = (i.addrs.getD []).foldl scanAddr st := by
  unfold scanIface
  cases i.addrs <;> simp

/-- The scan of the interfaces is the scan of the addresses it visits. -/
theorem scan_hostAddrs (ifaces : List Interface) (st : Finset String × List (String × Int)) :
    ifaces.foldl scanIface st = (hostAddrs ifaces).foldl scanAddr st := by
  induction ifaces generalizing st with
  | nil => simp [hostAddrs]
  | cons i rest ih =>
    have hh : hostAddrs (i :: rest) = i.addrs.getD [] ++ hostAddrs rest := by
      simp [hostAddrs]
    rw [List.foldl_cons, hh, List.foldl_append, ih, scanIface_eq]

/-- The pool built from a host whose interface enumeration succeeds. -/
theorem newIPPoolFromHost_eq (ifaces : List Interface)
    (hlen : (((hostAddrs ifaces).length : Nat) : Int) < 2 ^ 63) :
    newIPPoolFromHost (some ifaces) =
      { ips := ((hostAddrs ifaces).filterMap occupied).toFinset,
        weights :=
          [("172", (255 : Int) * 255 - (((hostAddrs ifaces).countP (firstOctetIs 172) : Nat) : Int)),
            ("192", (255 : Int) - (((hostAddrs ifaces).countP (firstOctetIs 192) : Nat) : Int))] } := by
  unfold newIPPoolFromHost
  simp only [defaultWeights, scan_hostAddrs]
  rw [scan_fold (hostAddrs ifaces) ∅ (255 * 255) (1 * 255) (by norm_num) (by omega)
    (by norm_num) (by omega)]
  simp

/-! ## The claims -/

/-- C1. Uniqueness.  In every sequence of `Get` calls on one pool (for every
pool state, every random draw and every walk order) the addresses returned by
the successful calls are pairwise distinct, and an address returned during a
first part `pre` of the sequence is a member of the allocated set after `pre`
and after every continuation `pre ++ post` of it. -/
theorem get_unique_and_kept (ipp : IPPool) (pre post : List (List Draw)) :
    (returnedIPs (GetMany ipp (pre ++ post)).2).Nodup ∧
      ∀ a ∈ returnedIPs (GetMany ipp pre).2,
        a ∈ (GetMany ipp pre).1.ips ∧ a ∈ (GetMany ipp (pre ++ post)).1.ips :=
  ⟨(GetMany_inv ipp (pre ++ post)).2.1, fun a ha =>
    ⟨((GetMany_inv ipp pre).2.2 a ha).1, GetMany_kept ipp pre post a ha⟩⟩

/-- C2. Block-format validity.  When the weight map has exactly the keys
`"172"` and `"192"`, an address returned by a successful `Get` is `"192.168"`
or `"172.N"` with `N` from 25 to 30; it is neither empty nor `"172.31"`. -/
theorem get_block_format (ipp : IPPool) (draws : List Draw) (a : String)
    (hk : (keys ipp.weights).Perm ["172", "192"])
    (h : (Get ipp draws).2 = Outcome.returned a none) :
    a ∈ ["192.168", "172.25", "172.26", "172.27", "172.28", "172.29", "172.30"] ∧
      a ≠ "" ∧ a ≠ "172.31" := by
  obtain ⟨-, -, ⟨d, -, hd⟩, -⟩ := Get_success ipp draws a h
  have hc := genIP_candidates ipp.weights d a hk hd
  refine ⟨hc, ?_, ?_⟩
  · rintro rfl
    revert hc
    decide
  · rintro rfl
    revert hc
    decide

/-- Witness of C2: the pool built without host interfaces returns `"172.28"`. -/
theorem get_block_format_witness :
    (Get (newIPPoolFromHost none) [⟨0, 0, 0, 3⟩]).2 = Outcome.returned "172.28" none ∧
      ("172.28" ∈ ["192.168", "172.25", "172.26", "172.27", "172.28", "172.29", "172.30"] ∧
        "172.28" ≠ "" ∧ "172.28" ≠ "172.31") :=
  ⟨by decide, get_block_format (newIPPoolFromHost none) [⟨0, 0, 0, 3⟩] "172.28"
    (by decide) (by decide)⟩

/-- C3. Capacity ceiling.  `Get` returns an error exactly when the allocated set
holds more than 60000 entries at the start of the call.  In that case the
result is the empty address with `NoAvailableIPsErr` and the pool unchanged,
whatever the draws are and also when there is none: no candidate is generated. -/
theorem get_exhausted_iff (ipp : IPPool) (draws : List Draw) :
    ((∃ a e, (Get ipp draws).2 = Outcome.returned a (some e)) ↔ 60000 < ipp.ips.card) ∧
      (60000 < ipp.ips.card →
        Get ipp draws = (ipp, Outcome.returned "" (some Error.NoAvailableIPsErr)) ∧
          Get ipp [] = (ipp, Outcome.returned "" (some Error.NoAvailableIPsErr))) := by
  refine ⟨⟨?_, ?_⟩, fun h => ⟨Get_full ipp draws h, Get_full ipp [] h⟩⟩
  · rintro ⟨a, e, h⟩
    exact Get_error_full ipp draws a e h
  · intro h
    exact ⟨"", Error.NoAvailableIPsErr, by rw [Get_full ipp draws h]⟩

/-- Witness of C3: a pool of 60001 entries returns the error, one of no entry
does not. -/
theorem get_exhausted_iff_witness :
    (60000 < fullPool.ips.card ∧
      Get fullPool [⟨0, 0, 0, 3⟩] =
        (fullPool, Outcome.returned "" (some Error.NoAvailableIPsErr))) ∧
    ¬ ∃ a e, (Get (newIPPoolFromHost none) [⟨0, 0, 0, 3⟩]).2 = Outcome.returned a (some e) :=
  ⟨⟨fullPool_card, ((get_exhausted_iff fullPool [⟨0, 0, 0, 3⟩]).2 fullPool_card).1⟩,
    fun h => absurd ((get_exhausted_iff (newIPPoolFromHost none) [⟨0, 0, 0, 3⟩]).1.1 h)
      (by decide)⟩

/-- C4. Atomicity on failure.  Whenever `Get` returns an error, the pool after
the call (allocated set and weight map) is the pool before the call and the
returned address is the empty string. -/
theorem get_error_atomic (ipp : IPPool) (draws : List Draw) (a : String) (e : Error)
    (h : (Get ipp draws).2 = Outcome.returned a (some e)) :
    (Get ipp draws).1 = ipp ∧ a = "" := by
  have hc : 60000 < ipp.ips.card := (Get_error_full ipp draws a e h)
  rw [Get_full ipp draws hc] at h ⊢
  simp only [Outcome.returned.injEq] at h
  exact ⟨rfl, h.1.symm⟩

/-- Witness of C4: the pool of 60001 entries fails and is left as it was. -/
theorem get_error_atomic_witness :
    (Get fullPool []).2 = Outcome.returned "" (some Error.NoAvailableIPsErr) ∧
      ((Get fullPool []).1 = fullPool ∧ "" = "") :=
  ⟨by rw [Get_full fullPool [] fullPool_card],
    get_error_atomic fullPool [] "" Error.NoAvailableIPsErr
      (by rw [Get_full fullPool [] fullPool_card])⟩

/-- C5. Success transition.  Whenever `Get` returns an address `a` without error
from a pool whose allocated set is `S`, `a` was not in `S`, the allocated set
after the call is `S` with `a` added (nothing else added, nothing removed), and
it has one entry more than `S`. -/
theorem get_success_transition (ipp : IPPool) (draws : List Draw) (a : String)
    (h : (Get ipp draws).2 = Outcome.returned a none) :
    a ∉ ipp.ips ∧ (Get ipp draws).1.ips = insert a ipp.ips ∧
      (∀ b, b ∈ (Get ipp draws).1.ips ↔ b = a ∨ b ∈ ipp.ips) ∧
      (Get ipp draws).1.ips.card = ipp.ips.card + 1 := by
  obtain ⟨-, hnew, -, hG⟩ := Get_success ipp draws a h
  rw [hG]
  exact ⟨hnew, rfl, fun b => Finset.mem_insert, Finset.card_insert_of_not_mem hnew⟩

/-- Witness of C5: a pool holding `"172.28"` skips that candidate on the first
iteration and returns `"192.168"` on the second. -/
theorem get_success_transition_witness :
    (Get ⟨{"172.28"}, defaultWeights⟩ [⟨0, 0, 0, 3⟩, ⟨0, 65026, 0, 0⟩]).2 =
        Outcome.returned "192.168" none ∧
      ("192.168" ∉ ({"172.28"} : Finset String) ∧
        (Get ⟨{"172.28"}, defaultWeights⟩ [⟨0, 0, 0, 3⟩, ⟨0, 65026, 0, 0⟩]).1.ips =
          insert "192.168" {"172.28"} ∧
        (∀ b, b ∈ (Get ⟨{"172.28"}, defaultWeights⟩ [⟨0, 0, 0, 3⟩, ⟨0, 65026, 0, 0⟩]).1.ips ↔
          b = "192.168" ∨ b ∈ ({"172.28"} : Finset String)) ∧
        (Get ⟨{"172.28"}, defaultWeights⟩ [⟨0, 0, 0, 3⟩, ⟨0, 65026, 0, 0⟩]).1.ips.card =
          ({"172.28"} : Finset String).card + 1) :=
  ⟨by decide, get_success_transition ⟨{"172.28"}, defaultWeights⟩
    [⟨0, 0, 0, 3⟩, ⟨0, 65026, 0, 0⟩] "192.168" (by decide)⟩

/-- C8. `Get` never changes the weights: after every call, successful or not
and whatever the number of iterations of the retry loop, the weight map is
the one before the call; the same holds after every sequence of calls. -/
theorem get_keeps_weights (ipp : IPPool) (draws : List Draw) :
    (Get ipp draws).1.weights = ipp.weights ∧
      ∀ calls : List (List Draw), (GetMany ipp calls).1.weights = ipp.weights := by
  have hone : ∀ (p : IPPool) (ds : List Draw), (Get p ds).1.weights = p.weights := by
    intro p ds
    by_cases hok : ∃ a, (Get p ds).2 = Outcome.returned a none
    · obtain ⟨a, ha⟩ := hok
      obtain ⟨-, -, -, hG⟩ := Get_success p ds a ha
      rw [hG]
    · rw [Get_unchanged p ds (fun a ha => hok ⟨a, ha⟩)]
  refine ⟨hone ipp draws, fun calls => ?_⟩
  induction calls generalizing ipp with
  | nil => rfl
  | cons ds rest ih =>
    cases hG : Get ipp ds with
    | mk p o =>
      have hp : p.weights = ipp.weights := by
        have := hone ipp ds
        rw [hG] at this
        exact this
      by_cases hl : o = Outcome.looping
      · subst hl
        rw [GetMany_cons_looping ipp p ds rest hG]
        exact hp
      · rw [GetMany_cons_other ipp p o ds rest hG hl]
        exact (ih p).trans hp

/-- C6. The pick is not proportional to the weights.  With the default weights
`"172" ↦ 65025` and `"192" ↦ 255` walked in the order `"172"`, `"192"`, of the
65280 possible draws 65026 return `"172"` and 254 return `"192"`: the draw
65025 still returns `"172"`, because the walk tests `r ≤ 0` after the
subtraction. -/
theorem pick_default_counts :
    mapGet defaultWeights "172" = some 65025 ∧ mapGet defaultWeights "192" = some 255 ∧
    rangeOrder defaultWeights 0 = [("172", 65025), ("192", 255)] ∧
    totalWeight (rangeOrder defaultWeights 0) = 65280 ∧
    randomPickWeighted defaultWeights 0 65025 0 = some "172" ∧
    ((Finset.range 65280).filter
      (fun r => randomPickWeighted defaultWeights 0 r 0 = some "172")).card = 65026 ∧
    ((Finset.range 65280).filter
      (fun r => randomPickWeighted defaultWeights 0 r 0 = some "192")).card = 254 := by
  refine ⟨by decide, by decide, by decide, by decide, by decide, ?_, ?_⟩
  · have : (Finset.range 65280).filter
        (fun r => randomPickWeighted defaultWeights 0 r 0 = some "172") =
        Finset.range 65026 := by
      ext r
      simp only [Finset.mem_filter, Finset.mem_range]
      constructor
      · rintro ⟨hr, h⟩
        rw [pick_default r hr] at h
        by_contra hlt
        have hgt : ¬ r ≤ 65025 := by omega
        simp [hgt] at h
      · intro hr
        have hlt : r < 65280 := by omega
        refine ⟨hlt, ?_⟩
        rw [pick_default r hlt]
        have hle : r ≤ 65025 := by omega
        simp [hle]
    rw [this, Finset.card_range]
  · have : (Finset.range 65280).filter
        (fun r => randomPickWeighted defaultWeights 0 r 0 = some "192") =
        Finset.Ico 65026 65280 := by
      ext r
      simp only [Finset.mem_filter, Finset.mem_range, Finset.mem_Ico]
      constructor
      · rintro ⟨hr, h⟩
        rw [pick_default r hr] at h
        refine ⟨?_, hr⟩
        by_contra hlt
        have hle : r ≤ 65025 := by omega
        simp [hle] at h
      · rintro ⟨h1, hr⟩
        refine ⟨hr, ?_⟩
        rw [pick_default r hr]
        have hgt : ¬ r ≤ 65025 := by omega
        simp [hgt]
    rw [this, Nat.card_Ico]

/-- C7. A block of weight zero is returned.  With the weights `"172" ↦ 65025` and
`"192" ↦ 0` walked in the order `"192"`, `"172"`, the draw 0 returns `"192"`: the
running value after subtracting the weight 0 is 0, which passes `r ≤ 0`. -/
theorem pick_zero_weight_block :
    rangeOrder [("172", 65025), ("192", 0)] 1 = [("192", 0), ("172", 65025)] ∧
    totalWeight (rangeOrder [("172", 65025), ("192", 0)] 0) = 65025 ∧
    randomPickWeighted [("172", 65025), ("192", 0)] 0 0 1 = some "192" := by
  refine ⟨by decide, by decide, by decide⟩

/-- C9. Construction result.  For every host whose addresses number less than
`2 ^ 63` (their count is a Go `int`), the pool built by `newIPPoolFromHost` has
weight `255 * 255` minus the number of IPv4 addresses with first octet 172 for
`"172"`, weight `255` minus the number of IPv4 addresses with first octet 192
for `"192"`, no other key, and as allocated set exactly the first-three-octet
prefixes of those addresses.  All other addresses change nothing: the pool is
the one built from the addresses of the two blocks alone. -/
theorem newIPPoolFromHost_result (ifaces : List Interface)
    (hlen : (((hostAddrs ifaces).length : Nat) : Int) < 2 ^ 63) :
    mapGet (newIPPoolFromHost (some ifaces)).weights "172" =
        some ((255 : Int) * 255 - (((hostAddrs ifaces).countP (firstOctetIs 172) : Nat) : Int)) ∧
      mapGet (newIPPoolFromHost (some ifaces)).weights "192" =
        some ((255 : Int) - (((hostAddrs ifaces).countP (firstOctetIs 192) : Nat) : Int)) ∧
      keys (newIPPoolFromHost (some ifaces)).weights = ["172", "192"] ∧
      (newIPPoolFromHost (some ifaces)).ips =
        (((hostAddrs ifaces).filter inBlocks).filterMap occupied).toFinset ∧
      newIPPoolFromHost (some ifaces) =
        newIPPoolFromHost (some [⟨some ((hostAddrs ifaces).filter inBlocks)⟩]) := by
  have hcount : ∀ n : Fin 256, (n = 172 ∨ n = 192) →
      ((hostAddrs ifaces).filter inBlocks).countP (firstOctetIs n) =
        (hostAddrs ifaces).countP (firstOctetIs n) := by
    intro n hn
    rw [List.countP_filter]
    apply List.countP_congr
    intro x _
    rcases hn with rfl | rfl <;> simp only [inBlocks] <;> cases firstOctetIs 172 x <;>
      cases firstOctetIs 192 x <;> simp
  have hocc : ((hostAddrs ifaces).filter inBlocks).filterMap occupied =
      (hostAddrs ifaces).filterMap occupied := by
    rw [List.filterMap_filter]
    congr 1
    funext x
    by_cases hx : inBlocks x = true
    · simp [hx]
    · have h12 : firstOctetIs 172 x = false ∧ firstOctetIs 192 x = false := by
        simpa [inBlocks] using hx
      simp [hx, (scanAddr_other ∅ 0 0 x h12.1 h12.2).1]
  have hfl : hostAddrs [⟨some ((hostAddrs ifaces).filter inBlocks)⟩] =
      (hostAddrs ifaces).filter inBlocks := by
    simp [hostAddrs]
  have hlen2 : (((hostAddrs [⟨some ((hostAddrs ifaces).filter inBlocks)⟩]).length : Nat) : Int)
      < 2 ^ 63 := by
    rw [hfl]
    have := List.length_filter_le inBlocks (hostAddrs ifaces)
    omega
  rw [newIPPoolFromHost_eq _ hlen2, hfl, hcount 172 (Or.inl rfl), hcount 192 (Or.inr rfl), hocc,
    newIPPoolFromHost_eq ifaces hlen]
  refine ⟨?_, ?_, ?_, rfl, rfl⟩
  · simp [mapGet]
  · simp [mapGet]
  · simp [keys]

/-- Witness of C9: a host with two addresses in block 172 that share their
prefix, one in block 192, one in block 10, a non-IPv4 address, an address of
another kind, and an interface whose listing fails. -/
theorem newIPPoolFromHost_result_witness :
    (((hostAddrs exampleHost).length : Nat) : Int) < 2 ^ 63 ∧
      newIPPoolFromHost (some exampleHost) =
        ⟨{"172.27.4", "192.168.5"}, [("172", 65023), ("192", 254)]⟩ ∧
      mapGet (newIPPoolFromHost (some exampleHost)).weights "172" =
        some ((255 : Int) * 255 -
          (((hostAddrs exampleHost).countP (firstOctetIs 172) : Nat) : Int)) :=
  ⟨by decide, by decide, (newIPPoolFromHost_result exampleHost (by decide)).1⟩

/-- C10. Graceful degradation.  When the enumeration of the host interfaces
reports an error, `newIPPoolFromHost` returns the pool with the default weights
`"172" ↦ 255 * 255`, `"192" ↦ 255` and an empty allocated set.  An interface whose
address listing fails contributes nothing and the scan goes on with the
other interfaces: the pool is the one built without that interface. -/
theorem newIPPoolFromHost_degrades :
    newIPPoolFromHost none = ⟨∅, [("172", 255 * 255), ("192", 255)]⟩ ∧
      ∀ pre post : List Interface,
        newIPPoolFromHost (some (pre ++ ⟨none⟩ :: post)) =
          newIPPoolFromHost (some (pre ++ post)) := by
  refine ⟨by decide, fun pre post => ?_⟩
  unfold newIPPoolFromHost
  simp only [List.foldl_append, List.foldl_cons]
  rfl

/-! ## More on the two loops of `randomPickWeighted` -/

/-- The machine sum does not depend on the walk order. -/
theorem totalWeight_perm {l₁ l₂ : List (String × Int)} (h : l₁.Perm l₂) :
    totalWeight l₁ = totalWeight l₂ := by
  have c1 := totalWeight_congr l₁
  have c2 := totalWeight_congr l₂
  have r1 := totalWeight_range l₁
  have r2 := totalWeight_range l₂
  rw [sumW_perm h] at c1
  omega

theorem totalWeight_rangeOrder (m : List (String × Int)) (order : Nat) :
    totalWeight (rangeOrder m order) = totalWeight m :=
  totalWeight_perm (rangeOrder_perm m order)

/-- With a total that is not positive `rand.Intn` panics. -/
theorem randomPickWeighted_panics (m : List (String × Int)) (order1 seed order2 : Nat)
    (h : totalWeight m ≤ 0) : randomPickWeighted m order1 seed order2 = none := by
  unfold randomPickWeighted Intn
  rw [totalWeight_rangeOrder]
  simp [h]

/-- With a positive total and a draw below it the pick is the walk. -/
theorem randomPickWeighted_eq (m : List (String × Int)) (order1 r order2 : Nat)
    (hr : (r : Int) < totalWeight m) :
    randomPickWeighted m order1 r order2 = some (pickWalk (rangeOrder m order2) r) := by
  unfold randomPickWeighted Intn
  rw [totalWeight_rangeOrder]
  have hT : ¬ totalWeight m ≤ 0 := by omega
  have hmod : (r : Int) % totalWeight m = r := Int.emod_eq_of_lt (by omega) hr
  simp [hT, hmod]

theorem runFinal_cons (kw : String × Int) (l : List (String × Int)) (r : Int) :
    runFinal (kw :: l) r = runFinal l (wrapInt (r - kw.2)) := rfl

/-- The walk returns at the first entry at which the running value is `≤ 0`, or
it reaches its end with the running value positive after every entry. -/
theorem pickWalk_first (walk : List (String × Int)) (r : Int) :
    (∃ i k w, walk[i]? = some (k, w) ∧ pickWalk walk r = k ∧
      runFinal (walk.take (i + 1)) r ≤ 0 ∧ ∀ j < i, 0 < runFinal (walk.take (j + 1)) r) ∨
    (pickWalk walk r = "" ∧ ∀ j < walk.length, 0 < runFinal (walk.take (j + 1)) r) := by
  induction walk generalizing r with
  | nil => exact Or.inr ⟨rfl, fun j hj => absurd hj (by simp)⟩
  | cons kw rest ih =>
    obtain ⟨k, w⟩ := kw
    by_cases hle : wrapInt (r - w) ≤ 0
    · refine Or.inl ⟨0, k, w, by simp, by simp [pickWalk, hle], ?_,
        fun j hj => absurd hj (by omega)⟩
      simpa [runFinal] using hle
    · have hstep : ∀ j, runFinal (((k, w) :: rest).take (j + 1)) r =
          if j = 0 then wrapInt (r - w) else runFinal (rest.take j) (wrapInt (r - w)) := by
        intro j
        cases j with
        | zero => simp [runFinal]
        | succ j => simp [runFinal]
      have hpick : pickWalk ((k, w) :: rest) r = pickWalk rest (wrapInt (r - w)) := by
        simp [pickWalk, hle]
      rcases ih (wrapInt (r - w)) with ⟨i, k2, w2, hget, hres, hfin, hbefore⟩ | ⟨hres, hall⟩
      · refine Or.inl ⟨i + 1, k2, w2, by simpa using hget, by rw [hpick, hres], ?_, ?_⟩
        · rw [hstep (i + 1)]
          simpa using hfin
        · intro j hj
          rw [hstep j]
          cases j with
          | zero => simp; omega
          | succ j => simpa using hbefore j (by omega)
      · refine Or.inr ⟨by rw [hpick, hres], ?_⟩
        intro j hj
        rw [hstep j]
        cases j with
        | zero => simp; omega
        | succ j =>
          simp only [List.length_cons] at hj
          simpa using hall j (by omega)

/-- With a positive total and a draw below it, the running value after the
whole walk is negative. -/
theorem runFinal_neg (m : List (String × Int)) (order2 : Nat) (r : Nat)
    (hr : (r : Int) < totalWeight m) : runFinal (rangeOrder m order2) r < 0 := by
  have hp := rangeOrder_perm m order2
  have hTr := totalWeight_range m
  have hTc := totalWeight_congr m
  have hS : sumW (rangeOrder m order2) = sumW m := sumW_perm hp
  have hc := runFinal_congr (rangeOrder m order2) r
  have hrg := runFinal_range (rangeOrder m order2) r (by omega) (by omega)
  rw [hS] at hc
  omega

/-- The two walk orders of a map of two entries. -/
theorem rangeOrder_pair (a b : String × Int) (order : Nat) :
    rangeOrder [a, b] order = [a, b] ∨ rangeOrder [a, b] order = [b, a] := by
  have hperm : [a, b].permutations' = [[a, b], [b, a]] := rfl
  unfold rangeOrder
  rw [hperm]
  have h2 : order % 2 = 0 ∨ order % 2 = 1 := by omega
  rcases h2 with h | h
  · left
    simp [h]
  · right
    simp [h]

theorem rangeOrder_pair_zero (a b : String × Int) : rangeOrder [a, b] 0 = [a, b] := rfl

theorem rangeOrder_pair_one (a b : String × Int) : rangeOrder [a, b] 1 = [b, a] := rfl

theorem totalWeight_pair (k1 k2 : String) (w1 w2 : Int) :
    totalWeight [(k1, w1), (k2, w2)] = wrapInt (wrapInt w1 + w2) := by
  simp [totalWeight]

/-- A map of two blocks, one of negative weight `w1` and the total positive:
every draw gives the other block, in both walk orders. -/
theorem pickWalk_two_neg (k1 k2 : String) (w1 w2 : Int) (r : Nat)
    (h1 : w1 < 0) (h1r : -2 ^ 63 ≤ w1) (h2r : w2 < 2 ^ 63) (hr : (r : Int) < w1 + w2) :
    pickWalk [(k1, w1), (k2, w2)] r = k2 ∧ pickWalk [(k2, w2), (k1, w1)] r = k2 := by
  have hr0 : (0 : Int) ≤ r := Int.ofNat_nonneg r
  constructor
  · have e1 : wrapInt ((r : Int) - w1) = r - w1 := wrapInt_of_range _ (by omega) (by omega)
    have e2 : wrapInt ((r : Int) - w1 - w2) = r - w1 - w2 :=
      wrapInt_of_range _ (by omega) (by omega)
    have c1 : ¬ ((r : Int) - w1 ≤ 0) := by omega
    have c2 : (r : Int) - w1 - w2 ≤ 0 := by omega
    simp only [pickWalk, e1, e2, c1, c2, if_false, if_true]
  · have e1 : wrapInt ((r : Int) - w2) = r - w2 := wrapInt_of_range _ (by omega) (by omega)
    have c1 : (r : Int) - w2 ≤ 0 := by omega
    simp only [pickWalk, e1, c1, if_true]

/-! ## The claims on `randomPickWeighted` -/

/-- C14, as stated, fails.  The weight map `"172" ↦ 0`, `"192" ↦ 0` has total 0 and
`randomPickWeighted` does not return the empty string on it: `rand.Intn 0` panics. -/
theorem pick_nonpositive_total_counterexample :
    totalWeight [("172", 0), ("192", 0)] ≤ 0 ∧
      randomPickWeighted [("172", 0), ("192", 0)] 0 0 0 = none ∧
      randomPickWeighted [("172", 0), ("192", 0)] 0 0 0 ≠ some "" := by
  refine ⟨by decide, by decide, by decide⟩

/-- C14, amended.  For every weight map whose weights sum (as the code sums
them) to zero or less, for every walk order and every random source,
`randomPickWeighted` does not return: `rand.Intn` panics.  In particular it does
not return the empty string. -/
theorem pick_nonpositive_total_panics (m : List (String × Int)) (order1 seed order2 : Nat)
    (h : totalWeight m ≤ 0) :
    randomPickWeighted m order1 seed order2 = none ∧
      randomPickWeighted m order1 seed order2 ≠ some "" := by
  have hp := randomPickWeighted_panics m order1 seed order2 h
  exact ⟨hp, by rw [hp]; simp⟩

/-- Witness of C14: the weights `"172" ↦ -1`, `"192" ↦ 1` sum to 0. -/
theorem pick_nonpositive_total_panics_witness :
    totalWeight [("172", -1), ("192", 1)] ≤ 0 ∧
      (randomPickWeighted [("172", -1), ("192", 1)] 1 7 0 = none ∧
        randomPickWeighted [("172", -1), ("192", 1)] 1 7 0 ≠ some "") :=
  ⟨by decide, pick_nonpositive_total_panics [("172", -1), ("192", 1)] 1 7 0 (by decide)⟩

/-- C17, as stated, fails.  The weight map with the one entry `"" ↦ 1` has total 1
and the draw 0 returns the empty string, which is its key. -/
theorem pick_first_block_counterexample :
    0 < totalWeight [("", 1)] ∧ ((0 : Nat) : Int) < totalWeight [("", 1)] ∧
      randomPickWeighted [("", 1)] 0 0 0 = some "" := by
  refine ⟨by decide, by decide, by decide⟩

/-- C17, amended.  For every weight map with a positive total, every walk order
and every draw `r` of `[0, total)`, `randomPickWeighted` returns the first block in
walk order at which the running value (the draw minus the weights walked so
far, as the code computes it) is `≤ 0`; such a block always exists, so the
result is a key of the map, and it is the empty string only when the empty
string is a key of the map. -/
theorem pick_first_block (m : List (String × Int)) (order1 r order2 : Nat)
    (hr : (r : Int) < totalWeight m) :
    ∃ i k w, (rangeOrder m order2)[i]? = some (k, w) ∧
      randomPickWeighted m order1 r order2 = some k ∧
      runFinal ((rangeOrder m order2).take (i + 1)) r ≤ 0 ∧
      (∀ j < i, 0 < runFinal ((rangeOrder m order2).take (j + 1)) r) ∧
      k ∈ keys m ∧ ("" ∉ keys m → k ≠ "") := by
  have hpick := randomPickWeighted_eq m order1 r order2 hr
  have hneg := runFinal_neg m order2 r hr
  rcases pickWalk_first (rangeOrder m order2) r with ⟨i, k, w, hget, hres, hfin, hbefore⟩ |
    ⟨-, hall⟩
  · have hk : k ∈ keys m := by
      have hmem : (k, w) ∈ rangeOrder m order2 := List.getElem?_mem hget
      have hmem2 : (k, w) ∈ m := (rangeOrder_perm m order2).mem_iff.1 hmem
      exact List.mem_map.2 ⟨(k, w), hmem2, rfl⟩
    refine ⟨i, k, w, hget, by rw [hpick, hres], hfin, hbefore, hk, ?_⟩
    intro hno hk0
    exact hno (hk0 ▸ hk)
  · exfalso
    cases hw : rangeOrder m order2 with
    | nil =>
      have hm : m = [] := by simpa [hw] using (rangeOrder_perm m order2).symm
      rw [hm] at hr
      simp [totalWeight] at hr
      omega
    | cons kw rest =>
      have hlast := hall rest.length (by rw [hw]; simp)
      rw [hw] at hlast hneg
      simp only [List.take_succ_cons] at hlast
      rw [List.take_of_length_le (le_refl _)] at hlast
      omega

/-- Witness of C17: the default weights, walk order `"172"` then `"192"`, draw 65025. -/
theorem pick_first_block_witness :
    ((65025 : Nat) : Int) < totalWeight defaultWeights ∧
      ∃ i k w, (rangeOrder defaultWeights 0)[i]? = some (k, w) ∧
        randomPickWeighted defaultWeights 0 65025 0 = some k ∧
        runFinal ((rangeOrder defaultWeights 0).take (i + 1)) ((65025 : Nat) : Int) ≤ 0 ∧
        (∀ j < i, 0 < runFinal ((rangeOrder defaultWeights 0).take (j + 1)) ((65025 : Nat) : Int)) ∧
        k ∈ keys defaultWeights ∧ ("" ∉ keys defaultWeights → k ≠ "") :=
  ⟨by decide, pick_first_block defaultWeights 0 65025 0 (by decide)⟩

/-- C19.  A negative-weight block is never selected.  For every weight map of two
blocks, one of negative weight `w1` and the other of positive weight `w2` (both
Go `int` values) with a positive total, for every walk order and every draw `r`
of `[0, total)`, `randomPickWeighted` returns the block of positive weight. -/
theorem pick_never_negative_block (k1 k2 : String) (w1 w2 : Int) (order1 r order2 : Nat)
    (h1 : w1 < 0) (h1r : -2 ^ 63 ≤ w1) (h2 : 0 < w2) (h2r : w2 < 2 ^ 63)
    (hr : (r : Int) < totalWeight [(k1, w1), (k2, w2)]) :
    randomPickWeighted [(k1, w1), (k2, w2)] order1 r order2 = some k2 ∧
      randomPickWeighted [(k2, w2), (k1, w1)] order1 r order2 = some k2 := by
  have e1 : wrapInt w1 = w1 := wrapInt_of_range _ h1r (by omega)
  have hT : totalWeight [(k1, w1), (k2, w2)] = w1 + w2 := by
    rw [totalWeight_pair, e1]
    exact wrapInt_of_range _ (by omega) (by omega)
  have hT2 : totalWeight [(k2, w2), (k1, w1)] = w1 + w2 := by
    rw [← hT]
    exact totalWeight_perm (List.Perm.swap _ _ _)
  have hw := pickWalk_two_neg k1 k2 w1 w2 r h1 h1r h2r (by rw [← hT]; exact hr)
  constructor
  · rw [randomPickWeighted_eq _ order1 r order2 hr]
    rcases rangeOrder_pair (k1, w1) (k2, w2) order2 with h | h <;> rw [h]
    · rw [hw.1]
    · rw [hw.2]
  · rw [randomPickWeighted_eq _ order1 r order2 (by rw [hT2, ← hT]; exact hr)]
    rcases rangeOrder_pair (k2, w2) (k1, w1) order2 with h | h <;> rw [h]
    · rw [hw.2]
    · rw [hw.1]

/-- Witness of C19: weights `"192" ↦ -1` and `"172" ↦ 65025`, total 65024, the last
draw 65023, walked with `"192"` first. -/
theorem pick_never_negative_block_witness :
    ((65023 : Nat) : Int) < totalWeight [("192", -1), ("172", 65025)] ∧
      (randomPickWeighted [("192", -1), ("172", 65025)] 0 65023 0 = some "172" ∧
        randomPickWeighted [("172", 65025), ("192", -1)] 0 65023 0 = some "172") :=
  ⟨by decide, pick_never_negative_block "192" "172" (-1) 65025 0 65023 0
    (by decide) (by decide) (by decide) (by decide) (by decide)⟩

/-! ## The retry loop on a pool that holds the seven candidates -/

/-- With a positive total `genIP` does not panic. -/
theorem genIP_some (weights : List (String × Int)) (d : Draw) (hT : 0 < totalWeight weights) :
    ∃ a, genIP weights d = some a := by
  unfold genIP randomPickWeighted Intn
  rw [totalWeight_rangeOrder]
  have hT2 : ¬ totalWeight weights ≤ 0 := by omega
  have h6 : ¬ ((6 : Int) ≤ 0) := by decide
  simp only [hT2, if_false, h6]
  split_ifs <;> exact ⟨_, rfl⟩

/-- The retry loop never leaves when every string `genIP` can build is taken. -/
theorem retryLoop_looping (ipp : IPPool) (draws : List Draw)
    (hk : (keys ipp.weights).Perm ["172", "192"]) (hall : ∀ c ∈ candidates, c ∈ ipp.ips)
    (hT : 0 < totalWeight ipp.weights) : retryLoop ipp draws = Outcome.looping := by
  induction draws with
  | nil => rfl
  | cons d ds ih =>
    obtain ⟨a, ha⟩ := genIP_some ipp.weights d hT
    have hin : a ∈ ipp.ips := hall a (genIP_candidates ipp.weights d a hk ha)
    simp [retryLoop, ha, hin, ih]

/-- C13, as stated, fails.  The pool `otherKeyPool` holds the seven candidates,
has seven entries and the weight map `"10" ↦ 1` of total 1; its `Get` returns
`"10"` on the first iteration of the retry loop. -/
theorem get_loops_counterexample :
    (∀ c ∈ candidates, c ∈ otherKeyPool.ips) ∧ otherKeyPool.ips.card ≤ 60000 ∧
      0 < totalWeight otherKeyPool.weights ∧
      (Get otherKeyPool [⟨0, 0, 0, 0⟩]).2 = Outcome.returned "10" none := by
  refine ⟨by decide, by decide, by decide, by decide⟩

/-- C13, amended.  For every pool whose weight map has exactly the keys `"172"`
and `"192"`, whose allocated set contains the seven candidates and holds at
most 60000 entries, and whose weights have a positive total: for every
sequence of draws and walk orders, of every length, `Get` is still in its retry
loop after them; it has returned neither an address nor an error, and the
pool is unchanged. -/
theorem get_loops_forever (ipp : IPPool) (draws : List Draw)
    (hk : (keys ipp.weights).Perm ["172", "192"]) (hall : ∀ c ∈ candidates, c ∈ ipp.ips)
    (hcard : ipp.ips.card ≤ 60000) (hT : 0 < totalWeight ipp.weights) :
    Get ipp draws = (ipp, Outcome.looping) ∧
      ∀ a e, (Get ipp draws).2 ≠ Outcome.returned a e := by
  have hG : Get ipp draws = (ipp, Outcome.looping) := by
    unfold Get
    have hc : ¬ 60000 < ipp.ips.card := by omega
    simp [hc, retryLoop_looping ipp draws hk hall hT]
  refine ⟨hG, fun a e => ?_⟩
  rw [hG]
  simp

/-- Witness of C13: the pool with the default weights and the seven candidates
is still looping after three draws. -/
theorem get_loops_forever_witness :
    Get usedUpPool [⟨0, 0, 0, 0⟩, ⟨1, 65279, 1, 5⟩, ⟨0, 40000, 1, 3⟩] =
        (usedUpPool, Outcome.looping) ∧
      ∀ a e, (Get usedUpPool [⟨0, 0, 0, 0⟩, ⟨1, 65279, 1, 5⟩, ⟨0, 40000, 1, 3⟩]).2 ≠
        Outcome.returned a e :=
  get_loops_forever usedUpPool [⟨0, 0, 0, 0⟩, ⟨1, 65279, 1, 5⟩, ⟨0, 40000, 1, 3⟩]
    (by decide) (by decide) (by decide) (by decide)

/-! ## Dots -/

theorem dotCount_append (s t : String) : dotCount (s ++ t) = dotCount s + dotCount t := by
  simp [dotCount, String.data_append]

set_option maxRecDepth 1000000 in
theorem dotCount_octet (n : Fin 256) : dotCount (toString n.val) = 0 := by
  revert n
  decide

/-- A recorded prefix has two dots. -/
theorem occupied_dotCount (x : Addr) (p : String) (h : occupied x = some p) : dotCount p = 2 := by
  cases x with
  | otherAddr => simp [occupied] at h
  | ipNet ip =>
    cases ip with
    | notV4 => simp [occupied] at h
    | v4 a b c d =>
      simp only [occupied] at h
      split_ifs at h
      simp only [Option.some.injEq] at h
      subst h
      have hdot : dotCount "." = 1 := by decide
      rw [dotCount_append, dotCount_append, dotCount_append, dotCount_append, dotCount_octet,
        dotCount_octet, dotCount_octet, hdot]

theorem candidates_dotCount (a : String) (h : a ∈ candidates) : dotCount a = 1 := by
  revert a
  decide

/-- A string that begins with `p` has at least the dots of `p`. -/
theorem beginsWith_dotCount (a p : String) (h : beginsWith a p = true) :
    dotCount p ≤ dotCount a := by
  unfold beginsWith at h
  have hpre : p.data <+: a.data := List.isPrefixOf_iff_prefix.1 h
  exact hpre.sublist.count_le '.'

/-! ## The shape of a constructed pool -/

/-- The scan of a list of addresses keeps the two keys and records the
prefixes of the addresses of the two blocks, whatever the weights become. -/
theorem scan_shape (addrs : List Addr) (S : Finset String) (w1 w2 : Int) :
    ∃ v1 v2, addrs.foldl scanAddr (S, [("172", w1), ("192", w2)]) =
      (S ∪ (addrs.filterMap occupied).toFinset, [("172", v1), ("192", v2)]) := by
  induction addrs generalizing S w1 w2 with
  | nil => exact ⟨w1, w2, by simp⟩
  | cons x rest ih =>
    rw [List.foldl_cons]
    by_cases c1 : firstOctetIs 172 x = true
    · obtain ⟨p, hp, hstep⟩ := scanAddr_172 S w1 w2 x c1
      obtain ⟨v1, v2, hv⟩ := ih (insert p S) (wrapInt (w1 - 1)) w2
      refine ⟨v1, v2, ?_⟩
      rw [hstep, hv]
      simp [List.filterMap_cons, hp, Finset.insert_union, Finset.union_insert]
    · have c1f : firstOctetIs 172 x = false := by simpa using c1
      by_cases c2 : firstOctetIs 192 x = true
      · obtain ⟨p, hp, hstep⟩ := scanAddr_192 S w1 w2 x c2
        obtain ⟨v1, v2, hv⟩ := ih (insert p S) w1 (wrapInt (w2 - 1))
        refine ⟨v1, v2, ?_⟩
        rw [hstep, hv]
        simp [List.filterMap_cons, hp, Finset.insert_union, Finset.union_insert]
      · have c2f : firstOctetIs 192 x = false := by simpa using c2
        obtain ⟨hp, hstep⟩ := scanAddr_other S w1 w2 x c1f c2f
        obtain ⟨v1, v2, hv⟩ := ih S w1 w2
        refine ⟨v1, v2, ?_⟩
        rw [hstep, hv]
        simp [List.filterMap_cons, hp]

/-- Every constructed pool has exactly the keys `"172"` and `"192"`, and its
allocated set is the set of recorded prefixes. -/
theorem newIPPoolFromHost_shape (host : Option (List Interface)) :
    keys (newIPPoolFromHost host).weights = ["172", "192"] ∧
      ∀ p ∈ (newIPPoolFromHost host).ips, ∃ ifaces x, host = some ifaces ∧
        x ∈ hostAddrs ifaces ∧ occupied x = some p := by
  cases host with
  | none => exact ⟨by decide, fun p hp => absurd hp (by simp [newIPPoolFromHost])⟩
  | some ifaces =>
    obtain ⟨v1, v2, hv⟩ := scan_shape (hostAddrs ifaces) ∅ (255 * 255) (1 * 255)
    have hpool : newIPPoolFromHost (some ifaces) =
        { ips := ((hostAddrs ifaces).filterMap occupied).toFinset,
          weights := [("172", v1), ("192", v2)] } := by
      unfold newIPPoolFromHost
      simp only [defaultWeights, scan_hostAddrs, hv]
      simp
    rw [hpool]
    refine ⟨by simp [keys], fun p hp => ?_⟩
    simp only [List.mem_toFinset, List.mem_filterMap] at hp
    obtain ⟨x, hx, hox⟩ := hp
    exact ⟨ifaces, x, rfl, hx, hox⟩

/-! ## What a sequence of calls returns -/

/-- On a pool with the keys `"172"` and `"192"` every returned address is one of
the seven candidates, and the allocated set grows by the returned addresses. -/
theorem GetMany_returned (ipp : IPPool) (calls : List (List Draw))
    (hk : (keys ipp.weights).Perm ["172", "192"]) :
    (∀ a ∈ returnedIPs (GetMany ipp calls).2, a ∈ candidates) ∧
      (GetMany ipp calls).1.ips = ipp.ips ∪ (returnedIPs (GetMany ipp calls).2).toFinset := by
  induction calls generalizing ipp with
  | nil => simp [GetMany, returnedIPs]
  | cons ds rest ih =>
    cases hG : Get ipp ds with
    | mk p o =>
      by_cases hl : o = Outcome.looping
      · subst hl
        have hp : p = ipp := by
          have := Get_unchanged ipp ds (by rw [hG]; simp)
          rw [hG] at this
          exact this
        rw [GetMany_cons_looping ipp p ds rest hG, hp]
        simp [returnedIPs]
      · rw [GetMany_cons_other ipp p o ds rest hG hl]
        by_cases hok : ∃ b, o = Outcome.returned b none
        · obtain ⟨b, rfl⟩ := hok
          obtain ⟨-, -, ⟨d, -, hd⟩, hG2⟩ := Get_success ipp ds b (by rw [hG])
          have hp : p = { ipp with ips := insert b ipp.ips } := by
            rw [hG2] at hG
            exact (Prod.mk.inj hG).1.symm
          have hkp : (keys p.weights).Perm ["172", "192"] := by rw [hp]; exact hk
          obtain ⟨h1, h2⟩ := ih p hkp
          rw [returnedIPs_cons_ok]
          refine ⟨?_, ?_⟩
          · intro a ha
            rcases List.mem_cons.1 ha with rfl | ha
            · exact genIP_candidates ipp.weights d a hk hd
            · exact h1 a ha
          · simp only [h2, List.toFinset_cons]
            rw [hp]
            simp only [Finset.insert_union, Finset.union_insert]
        · have hno : ∀ b, o ≠ Outcome.returned b none := fun b hb => hok ⟨b, hb⟩
          have hp : p = ipp := by
            have := Get_unchanged ipp ds (by rw [hG]; exact hno)
            rw [hG] at this
            exact this
          obtain ⟨h1, h2⟩ := ih p (by rw [hp]; exact hk)
          rw [returnedIPs_cons_other o _ hno]
          exact ⟨h1, by rw [h2, hp]⟩

/-! ## The claims on constructed pools -/

/-- C11.  Host-occupancy respect.  For every host and every sequence of `Get`
calls on the pool constructed from it, an address `a` returned by `Get` neither
equals nor begins with a prefix `p` recorded in the allocated set during
construction. -/
theorem host_occupancy_respected (host : Option (List Interface)) (calls : List (List Draw))
    (a p : String) (ha : a ∈ returnedIPs (GetMany (newIPPoolFromHost host) calls).2)
    (hp : p ∈ (newIPPoolFromHost host).ips) : a ≠ p ∧ beginsWith a p = false := by
  obtain ⟨hkeys, hocc⟩ := newIPPoolFromHost_shape host
  obtain ⟨ifaces, x, -, -, hx⟩ := hocc p hp
  have hp2 : dotCount p = 2 := occupied_dotCount x p hx
  have hcand : a ∈ candidates :=
    (GetMany_returned (newIPPoolFromHost host) calls (by rw [hkeys])).1 a ha
  have ha1 : dotCount a = 1 := candidates_dotCount a hcand
  refine ⟨?_, ?_⟩
  · rintro rfl
    omega
  · cases hb : beginsWith a p with
    | false => rfl
    | true =>
      have := beginsWith_dotCount a p hb
      omega

/-- Witness of C11: the host addresses `172.27.4.9` and `192.168.5.5` give the
recorded prefixes `"172.27.4"` and `"192.168.5"`; a call that draws `"172.27"`
returns it, and it neither equals nor begins with `"172.27.4"`. -/
theorem host_occupancy_respected_witness :
    (newIPPoolFromHost (some twoAddrHost)).ips = {"172.27.4", "192.168.5"} ∧
      returnedIPs (GetMany (newIPPoolFromHost (some twoAddrHost)) [[⟨0, 0, 0, 2⟩]]).2 =
        ["172.27"] ∧
      ("172.27" ≠ "172.27.4" ∧ beginsWith "172.27" "172.27.4" = false) :=
  ⟨by decide, by decide,
    host_occupancy_respected (some twoAddrHost) [[⟨0, 0, 0, 2⟩]] "172.27" "172.27.4"
      (by decide) (by decide)⟩

/-- C12.  End-to-end example.  On the pool constructed with no host interface
(empty allocated set, default weights), if seven `Get` calls of a sequence
succeed, the seven returned addresses are pairwise distinct and the allocated
set is then exactly the seven candidates. -/
theorem seven_gets (calls : List (List Draw))
    (h : (returnedIPs (GetMany (newIPPoolFromHost (some [])) calls).2).length = 7) :
    (newIPPoolFromHost (some [])) = ⟨∅, defaultWeights⟩ ∧
      (returnedIPs (GetMany (newIPPoolFromHost (some [])) calls).2).Nodup ∧
      (GetMany (newIPPoolFromHost (some [])) calls).1.ips =
        {"192.168", "172.25", "172.26", "172.27", "172.28", "172.29", "172.30"} := by
  have hpool : newIPPoolFromHost (some []) = ⟨∅, defaultWeights⟩ := by decide
  rw [hpool] at h ⊢
  have hnd := (GetMany_inv ⟨∅, defaultWeights⟩ calls).2.1
  obtain ⟨hc, hips⟩ := GetMany_returned ⟨∅, defaultWeights⟩ calls (by decide)
  refine ⟨rfl, hnd, ?_⟩
  rw [hips]
  simp only [Finset.empty_union]
  have hsub : (returnedIPs (GetMany ⟨∅, defaultWeights⟩ calls).2).toFinset ⊆
      candidates.toFinset := by
    intro a ha
    exact List.mem_toFinset.2 (hc a (List.mem_toFinset.1 ha))
  have hcard : candidates.toFinset.card ≤
      (returnedIPs (GetMany ⟨∅, defaultWeights⟩ calls).2).toFinset.card := by
    rw [List.toFinset_card_of_nodup hnd, h]
    decide
  rw [Finset.eq_of_subset_of_card_le hsub hcard]
  decide

/-- Witness of C12: seven calls that draw `"192.168"` and `"172.25"` to `"172.30"`. -/
theorem seven_gets_witness :
    returnedIPs (GetMany (newIPPoolFromHost (some [])) sevenCalls).2 =
        ["192.168", "172.25", "172.26", "172.27", "172.28", "172.29", "172.30"] ∧
      ((newIPPoolFromHost (some [])) = ⟨∅, defaultWeights⟩ ∧
        (returnedIPs (GetMany (newIPPoolFromHost (some [])) sevenCalls).2).Nodup ∧
        (GetMany (newIPPoolFromHost (some [])) sevenCalls).1.ips =
          {"192.168", "172.25", "172.26", "172.27", "172.28", "172.29", "172.30"}) :=
  ⟨by decide, seven_gets sevenCalls (by decide)⟩

/-! ## The weights of a constructed pool, by the counts of the two blocks -/

/-- The scan of a list of addresses, as long as the two counts keep the
weights in the range of `int`. -/
theorem scan_fold_count (addrs : List Addr) (S : Finset String) (w1 w2 : Int)
    (h1 : w1 < 2 ^ 63)
    (h1l : -2 ^ 63 ≤ w1 - ((addrs.countP (firstOctetIs 172) : Nat) : Int))
    (h2 : w2 < 2 ^ 63)
    (h2l : -2 ^ 63 ≤ w2 - ((addrs.countP (firstOctetIs 192) : Nat) : Int)) :
    addrs.foldl scanAddr (S, [("172", w1), ("192", w2)]) =
      (S ∪ (addrs.filterMap occupied).toFinset,
        [("172", w1 - ((addrs.countP (firstOctetIs 172) : Nat) : Int)),
          ("192", w2 - ((addrs.countP (firstOctetIs 192) : Nat) : Int))]) := by
  induction addrs generalizing S w1 w2 with
  | nil => simp
  | cons x rest ih =>
    rw [List.foldl_cons]
    by_cases c1 : firstOctetIs 172 x = true
    · have c2 := firstOctetIs_excl x c1
      obtain ⟨p, hp, hstep⟩ := scanAddr_172 S w1 w2 x c1
      simp only [List.countP_cons, c1, c2, if_true, Nat.cast_add, Nat.cast_one] at h1l h2l
      simp only [Bool.false_eq_true, if_false, Nat.add_zero] at h2l
      have hw : wrapInt (w1 - 1) = w1 - 1 := wrapInt_of_range _ (by omega) (by omega)
      rw [hstep, hw, ih (insert p S) (w1 - 1) w2 (by omega) (by omega) h2 (by omega)]
      simp only [List.countP_cons, c1, c2, List.filterMap_cons, hp, List.toFinset_cons]
      refine Prod.ext ?_ ?_
      · simp only [Finset.insert_union, Finset.union_insert]
      · simp only [if_true, Nat.cast_add, Nat.cast_one]
        simp
        omega
    · have c1f : firstOctetIs 172 x = false := by simpa using c1
      by_cases c2 : firstOctetIs 192 x = true
      · obtain ⟨p, hp, hstep⟩ := scanAddr_192 S w1 w2 x c2
        simp only [List.countP_cons, c1f, c2, if_true, Nat.cast_add, Nat.cast_one] at h1l h2l
        simp only [Bool.false_eq_true, if_false, Nat.add_zero] at h1l
        have hw : wrapInt (w2 - 1) = w2 - 1 := wrapInt_of_range _ (by omega) (by omega)
        rw [hstep, hw, ih (insert p S) w1 (w2 - 1) h1 (by omega) (by omega) (by omega)]
        simp only [List.countP_cons, c1f, c2, List.filterMap_cons, hp, List.toFinset_cons]
        refine Prod.ext ?_ ?_
        · simp only [Finset.insert_union, Finset.union_insert]
        · simp only [if_true, Nat.cast_add, Nat.cast_one]
          simp
          omega
      · have c2f : firstOctetIs 192 x = false := by simpa using c2
        obtain ⟨hp, hstep⟩ := scanAddr_other S w1 w2 x c1f c2f
        simp only [List.countP_cons, c1f, c2f, Bool.false_eq_true, if_false,
          Nat.add_zero] at h1l h2l
        rw [hstep, ih S w1 w2 h1 h1l h2 h2l]
        simp [List.countP_cons, c1f, c2f, List.filterMap_cons, hp]

/-- The pool built from a host whose two counts are below `2 ^ 63`. -/
theorem newIPPoolFromHost_count (ifaces : List Interface)
    (h172 : (((hostAddrs ifaces).countP (firstOctetIs 172) : Nat) : Int) < 2 ^ 63)
    (h192 : (((hostAddrs ifaces).countP (firstOctetIs 192) : Nat) : Int) < 2 ^ 63) :
    newIPPoolFromHost (some ifaces) =
      { ips := ((hostAddrs ifaces).filterMap occupied).toFinset,
        weights :=
          [("172", (65025 : Int) - (((hostAddrs ifaces).countP (firstOctetIs 172) : Nat) : Int)),
            ("192", (255 : Int) - (((hostAddrs ifaces).countP (firstOctetIs 192) : Nat) : Int))] } := by
  unfold newIPPoolFromHost
  simp only [defaultWeights, scan_hostAddrs]
  rw [scan_fold_count (hostAddrs ifaces) ∅ (255 * 255) (1 * 255) (by norm_num) (by omega)
    (by norm_num) (by omega)]
  simp

set_option maxRecDepth 1000000 in
theorem busyHost_addrs :
    (hostAddrs busyHost).countP (firstOctetIs 172) = 0 ∧
      (hostAddrs busyHost).countP (firstOctetIs 192) = 256 := by
  decide

/-- C15, as stated, fails.  On a host with 256 IPv4 addresses `192.168.i.1` the
weight of `"192"` in the constructed pool is `-1`. -/
theorem weights_nonneg_counterexample :
    (hostAddrs busyHost).countP (firstOctetIs 192) = 256 ∧
      mapGet (newIPPoolFromHost (some busyHost)).weights "192" = some (-1) ∧
      ¬ ((0 : Int) ≤ -1) := by
  refine ⟨busyHost_addrs.2, ?_, by decide⟩
  rw [newIPPoolFromHost_count busyHost (by rw [busyHost_addrs.1]; norm_num)
    (by rw [busyHost_addrs.2]; norm_num), busyHost_addrs.2]
  simp [mapGet]

/-- C15, amended.  For every host with at most `255 * 255` IPv4 addresses of first
octet 172 and at most `255` of first octet 192, both block weights of the pool
built by `newIPPoolFromHost` are `≥ 0`; so are those of the pool built when the
enumeration fails. -/
theorem weights_nonneg_within_quota (ifaces : List Interface)
    (h172 : (hostAddrs ifaces).countP (firstOctetIs 172) ≤ 255 * 255)
    (h192 : (hostAddrs ifaces).countP (firstOctetIs 192) ≤ 255) :
    (∃ w1 w2, (newIPPoolFromHost (some ifaces)).weights = [("172", w1), ("192", w2)] ∧
        mapGet (newIPPoolFromHost (some ifaces)).weights "172" = some w1 ∧
        mapGet (newIPPoolFromHost (some ifaces)).weights "192" = some w2 ∧
        0 ≤ w1 ∧ 0 ≤ w2) ∧
      (newIPPoolFromHost none).weights = [("172", 65025), ("192", 255)] := by
  refine ⟨?_, by decide⟩
  rw [newIPPoolFromHost_count ifaces (by omega) (by omega)]
  refine ⟨_, _, rfl, by simp [mapGet], by simp [mapGet], by omega, by omega⟩

/-- Witness of C15: the host `exampleHost` has two addresses of block 172 and one
of block 192. -/
theorem weights_nonneg_within_quota_witness :
    (hostAddrs exampleHost).countP (firstOctetIs 172) ≤ 255 * 255 ∧
      (hostAddrs exampleHost).countP (firstOctetIs 192) ≤ 255 ∧
      ((∃ w1 w2, (newIPPoolFromHost (some exampleHost)).weights = [("172", w1), ("192", w2)] ∧
          mapGet (newIPPoolFromHost (some exampleHost)).weights "172" = some w1 ∧
          mapGet (newIPPoolFromHost (some exampleHost)).weights "192" = some w2 ∧
          0 ≤ w1 ∧ 0 ≤ w2) ∧
        (newIPPoolFromHost none).weights = [("172", 65025), ("192", 255)]) :=
  ⟨by decide, by decide, weights_nonneg_within_quota exampleHost (by decide) (by decide)⟩

/-! ## Which candidates a call can return -/

/-- The pick on two blocks, one of negative weight, for every random source. -/
theorem randomPickWeighted_two_neg (k1 k2 : String) (w1 w2 : Int) (order1 seed order2 : Nat)
    (h1 : w1 < 0) (h1r : -2 ^ 63 ≤ w1) (h2r : w2 < 2 ^ 63) (hT : 0 < w1 + w2) :
    randomPickWeighted [(k2, w2), (k1, w1)] order1 seed order2 = some k2 := by
  have e1 : wrapInt w2 = w2 := wrapInt_of_range _ (by omega) (by omega)
  have hTe : totalWeight [(k2, w2), (k1, w1)] = w1 + w2 := by
    rw [totalWeight_pair, e1, Int.add_comm]
    exact wrapInt_of_range _ (by omega) (by omega)
  unfold randomPickWeighted Intn
  rw [totalWeight_rangeOrder, hTe]
  have hT2 : ¬ w1 + w2 ≤ 0 := by omega
  simp only [hT2, if_false, Option.some.injEq]
  have hr0 := Int.emod_nonneg (seed : Int) (ne_of_gt hT)
  have hr1 := Int.emod_lt_of_pos (seed : Int) hT
  have hn : ((((seed : Int) % (w1 + w2)).toNat : Nat) : Int) = (seed : Int) % (w1 + w2) :=
    Int.toNat_of_nonneg hr0
  have hw := pickWalk_two_neg k1 k2 w1 w2 ((seed : Int) % (w1 + w2)).toNat h1 h1r h2r
    (by rw [hn]; exact hr1)
  rw [hn] at hw
  rcases rangeOrder_pair (k2, w2) (k1, w1) order2 with h | h <;> rw [h]
  · exact hw.2
  · exact hw.1

/-- With two positive weights the draw 0 picks the block that is walked first. -/
theorem randomPickWeighted_first (k1 k2 : String) (w1 w2 : Int)
    (h1 : 0 < w1) (h2 : 0 < w2) (hs : w1 + w2 < 2 ^ 63) :
    randomPickWeighted [(k1, w1), (k2, w2)] 0 0 0 = some k1 ∧
      randomPickWeighted [(k1, w1), (k2, w2)] 0 0 1 = some k2 := by
  have e1 : wrapInt w1 = w1 := wrapInt_of_range _ (by omega) (by omega)
  have hTe : totalWeight [(k1, w1), (k2, w2)] = w1 + w2 := by
    rw [totalWeight_pair, e1]
    exact wrapInt_of_range _ (by omega) (by omega)
  have hr : ((0 : Nat) : Int) < totalWeight [(k1, w1), (k2, w2)] := by
    rw [hTe]
    simpa using (by omega : 0 < w1 + w2)
  have c1 : wrapInt (((0 : Nat) : Int) - w1) ≤ 0 := by
    rw [wrapInt_of_range _ (by simp; omega) (by simp; omega)]
    simp
    omega
  have c2 : wrapInt (((0 : Nat) : Int) - w2) ≤ 0 := by
    rw [wrapInt_of_range _ (by simp; omega) (by simp; omega)]
    simp
    omega
  constructor
  · rw [randomPickWeighted_eq _ 0 0 0 hr, rangeOrder_pair_zero]
    simp only [pickWalk, c1, if_true]
  · rw [randomPickWeighted_eq _ 0 0 1 hr, rangeOrder_pair_one]
    simp only [pickWalk, c2, if_true]

/-- With two positive weights every candidate is built by some draw. -/
theorem genIP_reaches (w1 w2 : Int) (h1 : 0 < w1) (h2 : 0 < w2) (hs : w1 + w2 < 2 ^ 63)
    (a : String) (ha : a ∈ candidates) :
    ∃ d, genIP [("172", w1), ("192", w2)] d = some a := by
  obtain ⟨p0, p1⟩ := randomPickWeighted_first "172" "192" w1 w2 h1 h2 hs
  simp only [candidates, List.mem_cons, List.mem_singleton, List.not_mem_nil, or_false] at ha
  rcases ha with rfl | rfl | rfl | rfl | rfl | rfl | rfl
  · exact ⟨⟨0, 0, 1, 0⟩, by simp only [genIP, p1]; decide⟩
  · exact ⟨⟨0, 0, 0, 0⟩, by simp only [genIP, p0]; decide⟩
  · exact ⟨⟨0, 0, 0, 1⟩, by simp only [genIP, p0]; decide⟩
  · exact ⟨⟨0, 0, 0, 2⟩, by simp only [genIP, p0]; decide⟩
  · exact ⟨⟨0, 0, 0, 3⟩, by simp only [genIP, p0]; decide⟩
  · exact ⟨⟨0, 0, 0, 4⟩, by simp only [genIP, p0]; decide⟩
  · exact ⟨⟨0, 0, 0, 5⟩, by simp only [genIP, p0]; decide⟩

/-- A call whose first draw builds a string that is not allocated returns it. -/
theorem Get_single (ipp : IPPool) (d : Draw) (a : String) (hc : ipp.ips.card ≤ 60000)
    (hg : genIP ipp.weights d = some a) (hn : a ∉ ipp.ips) :
    (Get ipp [d]).2 = Outcome.returned a none := by
  have hc2 : ¬ 60000 < ipp.ips.card := by omega
  simp [Get, hc2, retryLoop, hg, hn]

/-- With a negative weight for `"192"` and a positive total no draw builds
`"192.168"`. -/
theorem genIP_never_192 (w1 w2 : Int) (h2 : w2 < 0) (h2r : -2 ^ 63 ≤ w2) (h1r : w1 < 2 ^ 63)
    (hT : 0 < w2 + w1) (d : Draw) :
    genIP [("172", w1), ("192", w2)] d ≠ some "192.168" := by
  have hp := randomPickWeighted_two_neg "192" "172" w2 w1 d.order1 d.r d.order2 h2 h2r h1r hT
  have hoct : ((d.oct : Int) % 6 = 0 ∨ (d.oct : Int) % 6 = 1 ∨ (d.oct : Int) % 6 = 2) ∨
      ((d.oct : Int) % 6 = 3 ∨ (d.oct : Int) % 6 = 4 ∨ (d.oct : Int) % 6 = 5) := by omega
  have h6 : ¬ ((6 : Int) ≤ 0) := by decide
  have hne : ¬ ("172" = "192") := by decide
  simp only [genIP, hp, hne, if_false, if_true, Intn, h6]
  rcases hoct with (h0 | h0 | h0) | (h0 | h0 | h0) <;> rw [h0] <;> decide

/-- C18, as stated, fails in its last part.  The pool built on a host without
interfaces returns `"192.168"` for a suitable draw; the pool built on the host
`busyHost` (256 addresses `192.168.i.1`, weight `-1` for `"192"`) never returns
`"192.168"`, whatever the draws: the addresses `Get` can return depend on the
addresses of the host. -/
theorem host_scan_counterexample :
    (Get (newIPPoolFromHost (some [])) [⟨0, 65026, 0, 0⟩]).2 =
        Outcome.returned "192.168" none ∧
      (newIPPoolFromHost (some busyHost)).weights = [("172", 65025), ("192", -1)] ∧
      ∀ draws, (Get (newIPPoolFromHost (some busyHost)) draws).2 ≠
        Outcome.returned "192.168" none := by
  have hw : (newIPPoolFromHost (some busyHost)).weights = [("172", 65025), ("192", -1)] := by
    rw [newIPPoolFromHost_count busyHost (by rw [busyHost_addrs.1]; norm_num)
      (by rw [busyHost_addrs.2]; norm_num), busyHost_addrs.1, busyHost_addrs.2]
    norm_num
  refine ⟨by decide, hw, fun draws h => ?_⟩
  obtain ⟨-, -, ⟨d, -, hd⟩, -⟩ := Get_success _ draws "192.168" h
  rw [hw] at hd
  exact genIP_never_192 65025 (-1) (by norm_num) (by norm_num) (by norm_num) (by norm_num) d hd

/-- C18, amended.  For every host, every entry that `newIPPoolFromHost` records in
the allocated set has two dots, that is three dot-separated components, so
the allocated set of a freshly constructed pool is disjoint from the seven
candidates.  For every host with fewer than `255 * 255` IPv4 addresses of first
octet 172 and fewer than `255` of first octet 192 (both weights stay positive)
and at most 60000 recorded prefixes, the addresses `Get` can return on the
fresh pool are exactly the seven candidates. -/
theorem host_scan_keeps_candidates (ifaces : List Interface) :
    (∀ p ∈ (newIPPoolFromHost (some ifaces)).ips, dotCount p = 2) ∧
    (∀ p ∈ (newIPPoolFromHost (some ifaces)).ips, p ∉ candidates) ∧
    ((hostAddrs ifaces).countP (firstOctetIs 172) < 255 * 255 →
      (hostAddrs ifaces).countP (firstOctetIs 192) < 255 →
      (newIPPoolFromHost (some ifaces)).ips.card ≤ 60000 →
      ∀ a, (∃ draws, (Get (newIPPoolFromHost (some ifaces)) draws).2 =
        Outcome.returned a none) ↔ a ∈ candidates) := by
  obtain ⟨hkeys, hocc⟩ := newIPPoolFromHost_shape (some ifaces)
  have hdots : ∀ p ∈ (newIPPoolFromHost (some ifaces)).ips, dotCount p = 2 := by
    intro p hp
    obtain ⟨_, x, -, -, hx⟩ := hocc p hp
    exact occupied_dotCount x p hx
  have hdisj : ∀ p ∈ (newIPPoolFromHost (some ifaces)).ips, p ∉ candidates := by
    intro p hp hc
    have h2 := hdots p hp
    have h1 := candidates_dotCount p hc
    omega
  refine ⟨hdots, hdisj, fun h172 h192 hcard a => ⟨?_, ?_⟩⟩
  · rintro ⟨draws, h⟩
    obtain ⟨-, -, ⟨d, -, hd⟩, -⟩ := Get_success _ draws a h
    exact genIP_candidates _ d a (by rw [hkeys]) hd
  · intro ha
    have hw := congrArg IPPool.weights (newIPPoolFromHost_count ifaces (by omega) (by omega))
    simp only at hw
    obtain ⟨d, hd⟩ := genIP_reaches
      ((65025 : Int) - (((hostAddrs ifaces).countP (firstOctetIs 172) : Nat) : Int))
      ((255 : Int) - (((hostAddrs ifaces).countP (firstOctetIs 192) : Nat) : Int))
      (by omega) (by omega) (by omega) a ha
    rw [← hw] at hd
    exact ⟨[d], Get_single _ d a hcard hd (fun hin => hdisj a hin ha)⟩

/-- Witness of C18: on the host `exampleHost` the recorded prefixes are
`"172.27.4"` and `"192.168.5"`, and `"192.168"` can be returned. -/
theorem host_scan_keeps_candidates_witness :
    (newIPPoolFromHost (some exampleHost)).ips = {"172.27.4", "192.168.5"} ∧
      dotCount "172.27.4" = 2 ∧ "172.27.4" ∉ candidates ∧
      ∃ draws, (Get (newIPPoolFromHost (some exampleHost)) draws).2 =
        Outcome.returned "192.168" none :=
  ⟨by decide, (host_scan_keeps_candidates exampleHost).1 "172.27.4" (by decide),
    (host_scan_keeps_candidates exampleHost).2.1 "172.27.4" (by decide),
    ((host_scan_keeps_candidates exampleHost).2.2 (by decide) (by decide) (by decide)
      "192.168").2 (by decide)⟩

end Daemon
